import Mathlib

/-! The weight initialisers of flashlight, `fl/nn/Init.cpp`.

A shallow embedding of `flashlight/fl/nn/Init.cpp` and the properties of its
initialisers.

Numbers.  A floating-point value is a rational, `+inf`, `-inf` or `NaN` (`double`).  An
arithmetic operation returns the exact result rounded to the nearest number of its
format, ties to even (`FpFormat.round`: `prec` significant bits, subnormal numbers down
to `2 ^ emin`, overflow to an infinity from `2 ^ emax` on).  The C++ type `double` is the
format binary64, and `std::sqrt` is the correctly rounded square root (`sqrtRN`).  The
sign of zero is not recorded: the only divisors in the file are converted `int`s, so the
sign of a zero never decides a result.  The C++ type `int` is a 32-bit two's complement
integer; `int.add` wraps.

Tensors.  An `af::array` is a shape, an element type tag and the list of its elements.
ArrayFire computes `scalar * array` and `array + scalar` in the element type of the
array: the `double` scalar is converted to that type first (`af.dtype.format`,
`af.array.scale`, `af.array.plus`), so the affine map of `af::uniform` and `af::normal`
on an `f32` tensor is binary32 arithmetic.  The value `mean + draw * stdv` of
`fl::truncNormal` is followed at binary64 (`af.array.times`, `af.array.shift`) up to the
clamp, which decides its range.  The random draws `af::randu` and `af::randn` are inputs
of the model (`af.Backend`); they may fail, and the initialisers propagate that failure.
-/

/-! ## Floating-point arithmetic -/

/-- Nearest integer to `t`, ties to the even one. -/
def roundHE (t : ℚ) : ℤ :=
  let f := ⌊t⌋
  let r := t - f
  if r < 1 / 2 then f else if 1 / 2 < r then f + 1 else if f % 2 = 0 then f else f + 1

/-- A binary floating-point format: `prec` significant bits, the least positive number
`2 ^ emin`, overflow from `2 ^ emax` on. -/
structure FpFormat where
  prec : ℤ
  emin : ℤ
  emax : ℕ
  deriving DecidableEq, Repr

/-- IEEE-754 binary64, the format of `double` and of the elements of an `f64` tensor. -/
def binary64 : FpFormat := { prec := 53, emin := -1074, emax := 1024 }

/-- IEEE-754 binary32, the format of the elements of an `f32` tensor. -/
def binary32 : FpFormat := { prec := 24, emin := -149, emax := 128 }

/-- IEEE-754 binary16, the format of the elements of an `f16` tensor. -/
def binary16 : FpFormat := { prec := 11, emin := -24, emax := 16 }

/-- The values of the C++ type `double`; the elements of a tensor are held as such
values too. -/
inductive double where
  | fin (q : ℚ)
  | pinf
  | ninf
  | nan
  deriving DecidableEq, Repr

/-- An infinity of the sign of `q` times the sign given by `pos`; `NaN` for `q = 0`. -/
def double.infTimes (pos : Bool) (q : ℚ) : double :=
  if q = 0 then double.nan else if (0 < q) = pos then double.pinf else double.ninf

namespace FpFormat

/-- Exponent of the unit in the last place of a positive rational `q`: `prec - 1` below
the binary exponent of `q`, and `emin` for the subnormal numbers. -/
def ulpExp (F : FpFormat) (q : ℚ) : ℤ := max (Int.log 2 q - (F.prec - 1)) F.emin

/-- Rounding of a positive rational to the nearest multiple of its unit in the last
place, ties to even. -/
def rndPos (F : FpFormat) (q : ℚ) : ℚ :=
  let s : ℚ := 2 ^ F.ulpExp q
  roundHE (q / s) * s

/-- Round to nearest, ties to even, before the overflow test. -/
def rnd (F : FpFormat) (q : ℚ) : ℚ :=
  if 0 < q then F.rndPos q else if q < 0 then -F.rndPos (-q) else 0

/-- A rational is a finite number of the format when rounding leaves it unchanged and it
is below `2 ^ emax` in absolute value. -/
def isNum (F : FpFormat) (q : ℚ) : Prop := F.rnd q = q ∧ |q| < 2 ^ F.emax

instance (F : FpFormat) (q : ℚ) : Decidable (F.isNum q) := by unfold isNum; infer_instance

/-- The largest finite number of the format. -/
def maxNum (F : FpFormat) : ℚ := 2 ^ F.emax - 2 ^ ((F.emax : ℤ) - F.prec)

/-- The conditions on a format that the proofs use: it has a significant bit, the numbers
of `[1/2, 1)` have full precision (`emin ≤ -prec`), and `prec ≤ emax`.  The IEEE formats
satisfy them. -/
def valid (F : FpFormat) : Prop := 1 ≤ F.prec ∧ F.emin + F.prec ≤ 0 ∧ F.prec ≤ F.emax

instance (F : FpFormat) : Decidable F.valid := by unfold valid; infer_instance

/-- Every number of `F` is a number of `G`. -/
def within (F G : FpFormat) : Prop := F.prec ≤ G.prec ∧ G.emin ≤ F.emin ∧ F.emax ≤ G.emax

instance (F G : FpFormat) : Decidable (F.within G) := by unfold within; infer_instance

/-- The result of an operation whose exact value is `q`: `q` rounded to nearest, an
infinity when the rounded value reaches `2 ^ emax` in absolute value. -/
def round (F : FpFormat) (q : ℚ) : double :=
  if 2 ^ F.emax ≤ F.rnd q then double.pinf
  else if F.rnd q ≤ -2 ^ F.emax then double.ninf
  else double.fin (F.rnd q)

/-- Conversion of a value to the format. -/
def cast (F : FpFormat) : double → double
  | double.fin q => F.round q
  | double.pinf => double.pinf
  | double.ninf => double.ninf
  | double.nan => double.nan

/-- Addition `a + b` in the format. -/
def add (F : FpFormat) : double → double → double
  | double.fin a, double.fin b => F.round (a + b)
  | double.nan, _ => double.nan
  | _, double.nan => double.nan
  | double.pinf, double.ninf => double.nan
  | double.ninf, double.pinf => double.nan
  | double.pinf, _ => double.pinf
  | _, double.pinf => double.pinf
  | double.ninf, _ => double.ninf
  | _, double.ninf => double.ninf

/-- Multiplication `a * b` in the format. -/
def mul (F : FpFormat) : double → double → double
  | double.fin a, double.fin b => F.round (a * b)
  | double.nan, _ => double.nan
  | _, double.nan => double.nan
  | double.pinf, double.fin q => double.infTimes true q
  | double.ninf, double.fin q => double.infTimes false q
  | double.fin q, double.pinf => double.infTimes true q
  | double.fin q, double.ninf => double.infTimes false q
  | double.pinf, double.pinf => double.pinf
  | double.ninf, double.ninf => double.pinf
  | double.pinf, double.ninf => double.ninf
  | double.ninf, double.pinf => double.ninf

end FpFormat

/-! ## The type `double` -/

/-- Round to nearest binary64 number, ties to even, before the overflow test. -/
def rnd64 (q : ℚ) : ℚ := binary64.rnd q

/-- Nearest integer to the square root of `t ≥ 0`, ties to the even one: with
`r = ⌊√t⌋` the root is compared with `r + 1/2` through `t` and `(r + 1/2)²`. -/
def roundSqrt (t : ℚ) : ℕ :=
  let r : ℕ := Nat.sqrt ⌊t⌋₊
  let h : ℚ := r * r + r + 1 / 4
  if t < h then r else if h < t then r + 1 else if r % 2 = 0 then r else r + 1

/-- Correctly rounded square root of a rational, 53 significant bits: with
`4 ^ k ≤ q < 4 ^ (k + 1)` the root lies in `[2 ^ k, 2 ^ (k + 1))` and the result is the
multiple of `2 ^ (k - 52)` nearest to it. -/
def sqrtRN (q : ℚ) : ℚ :=
  if q ≤ 0 then 0 else
    let s : ℚ := 2 ^ (Int.log 2 q / 2 - 52)
    roundSqrt (q / (s * s)) * s

/-- A rational is a finite binary64 number when rounding leaves it unchanged and it is
below `2 ^ 1024` in absolute value. -/
def isDbl (q : ℚ) : Prop := rnd64 q = q ∧ |q| < 2 ^ 1024

instance (q : ℚ) : Decidable (isDbl q) := by unfold isDbl; infer_instance

/-- The largest finite binary64 number, `DBL_MAX`. -/
def dblMax : ℚ := 2 ^ 1024 - 2 ^ 971

namespace double

/-- The result of a `double` operation whose exact value is `q`: `q` rounded to nearest,
an infinity when the rounded value reaches `2 ^ 1024` in absolute value. -/
def round (q : ℚ) : double := binary64.round q

/-- Unary minus. -/
def neg : double → double
  | fin q => fin (-q)
  | pinf => ninf
  | ninf => pinf
  | nan => nan

/-- Addition `a + b`. -/
def add (a b : double) : double := binary64.add a b

/-- Subtraction `a - b`. -/
def sub (a b : double) : double := add a (neg b)

/-- Multiplication `a * b`. -/
def mul (a b : double) : double := binary64.mul a b

/-- Division `a / b`; a zero divisor is `+0`. -/
def div : double → double → double
  | fin a, fin b =>
    if b = 0 then (if a = 0 then nan else if 0 < a then pinf else ninf)
    else round (a / b)
  | nan, _ => nan
  | _, nan => nan
  | fin _, pinf => fin 0
  | fin _, ninf => fin 0
  | pinf, fin q => if 0 ≤ q then pinf else ninf
  | ninf, fin q => if 0 ≤ q then ninf else pinf
  | pinf, pinf => nan
  | pinf, ninf => nan
  | ninf, pinf => nan
  | ninf, ninf => nan

/-- The library function `std::sqrt`.  The root of a finite binary64 number is a normal
number or zero, so no overflow test is needed. -/
def sqrt : double → double
  | fin q => if q < 0 then nan else fin (sqrtRN q)
  | pinf => pinf
  | ninf => nan
  | nan => nan

/-- Conversion `static_cast<double>(n)` of an `int`: exact, an `int` has 32 bits. -/
def ofInt (n : ℤ) : double := fin n

end double

/-! ## 32-bit `int` -/

/-- The range of the C++ type `int`. -/
def isInt32 (n : ℤ) : Prop := -2 ^ 31 ≤ n ∧ n < 2 ^ 31

instance (n : ℤ) : Decidable (isInt32 n) := by unfold isInt32; infer_instance

/-- Sum of two `int`s, wrapped to 32 bits. -/
def int.add (a b : ℤ) : ℤ := (a + b + 2 ^ 31) % 2 ^ 32 - 2 ^ 31

/-! ## The tensor backend -/

namespace af

/-- The shape `af::dim4`: four extents of type `dim_t`.  The constructor call
`af::dim4(first, second)` sets the two extents it is not given to 1. -/
structure dim4 where
  d0 : ℤ
  d1 : ℤ
  d2 : ℤ
  d3 : ℤ
  deriving DecidableEq, Repr

/-- Number of elements of a shape. -/
def dim4.elements (d : dim4) : ℤ := d.d0 * d.d1 * d.d2 * d.d3

/-- Some extent of the shape is negative. -/
def dim4.hasNegative (d : dim4) : Prop := d.d0 < 0 ∨ d.d1 < 0 ∨ d.d2 < 0 ∨ d.d3 < 0

instance (d : dim4) : Decidable d.hasNegative := by unfold dim4.hasNegative; infer_instance

/-- The element type tag `af::dtype`. -/
inductive dtype where
  | f32 | c32 | f64 | c64 | b8 | s32 | u32 | u8 | s64 | u64 | s16 | u16 | f16
  deriving DecidableEq, Repr

/-- The tensor `af::array`: shape, element type tag, elements. -/
structure array where
  dims : dim4
  type : dtype
  data : List double
  deriving DecidableEq, Repr

/-- The floating-point format in which ArrayFire computes with a `double` scalar and a
tensor of the given element type: the scalar is converted to the element type of the
tensor, double precision for `f64` and `c64`, half precision for `f16`, and single
precision for the other types. -/
def dtype.format : dtype → FpFormat
  | f64 => binary64
  | c64 => binary64
  | f16 => binary16
  | _ => binary32

/-- The product `c * a` of a `double` and an array, elementwise, in the element type of
the array. -/
def array.scale (c : double) (a : array) : array :=
  { a with data := a.data.map (fun x => a.type.format.mul (a.type.format.cast c) x) }

/-- The sum `a + c` of an array and a `double`, elementwise, in the element type of the
array. -/
def array.plus (a : array) (c : double) : array :=
  { a with data := a.data.map (fun x => a.type.format.add x (a.type.format.cast c)) }

/-- Modelled from the spec: `af::constant`, the backend operation
`fill(shape, value, dtype)`: a tensor of the given shape whose elements all are
`val`. -/
def constant (val : double) (dims : dim4) (type : dtype) : array :=
  { dims := dims, type := type, data := List.replicate dims.elements.toNat val }

/-- The random draws of the backend, `af::randu` (uniform on `[0,1)`) and `af::randn`
(standard normal).  A draw can fail with an error of type `ε`. -/
structure Backend (ε : Type) where
  randu : dim4 → dtype → Except ε array
  randn : dim4 → dtype → Except ε array

/-- The function `af::uniform(shape, min, max, type)`. -/
def uniform {ε : Type} (B : Backend ε) (shape : dim4) (min max : double) (type : dtype) :
    Except ε array := do
  let result ← B.randu shape type
  let result := (result.scale (double.sub max min)).plus min
  return result

/-- The function `af::normal(shape, stdv, mean, type)`. -/
def normal {ε : Type} (B : Backend ε) (shape : dim4) (stdv mean : double) (type : dtype) :
    Except ε array := do
  let result ← B.randn shape type
  let result := (result.scale stdv).plus mean
  return result

/-- The local `limit` of `af::kaimingUniform`. -/
def kaimingLimit (fanIn : ℤ) : double :=
  let stdv := double.sqrt (double.div (double.fin 1) (double.ofInt fanIn))
  let limit := double.mul (double.sqrt (double.fin 3)) stdv
  limit

/-- The function `af::kaimingUniform(shape, fanIn, type)`. -/
def kaimingUniform {ε : Type} (B : Backend ε) (shape : dim4) (fanIn : ℤ) (type : dtype) :
    Except ε array :=
  let limit := kaimingLimit fanIn
  uniform B shape (double.neg limit) limit type

/-- The function `af::kaimingNormal(shape, fanIn, type)`. -/
def kaimingNormal {ε : Type} (B : Backend ε) (shape : dim4) (fanIn : ℤ) (type : dtype) :
    Except ε array :=
  let stdv := double.sqrt (double.div (double.fin 1) (double.ofInt fanIn))
  normal B shape stdv (double.fin 0) type

/-- The local `limit` of `af::glorotUniform`. -/
def glorotLimit (fanIn fanOut : ℤ) : double :=
  let stdv := double.sqrt (double.div (double.fin 2) (double.ofInt (int.add fanIn fanOut)))
  let limit := double.mul (double.sqrt (double.fin 3)) stdv
  limit

/-- The function `af::glorotUniform(shape, fanIn, fanOut, type)`. -/
def glorotUniform {ε : Type} (B : Backend ε) (shape : dim4) (fanIn fanOut : ℤ)
    (type : dtype) : Except ε array :=
  let limit := glorotLimit fanIn fanOut
  uniform B shape (double.neg limit) limit type

/-- The function `af::glorotNormal(shape, fanIn, fanOut, type)`. -/
def glorotNormal {ε : Type} (B : Backend ε) (shape : dim4) (fanIn fanOut : ℤ)
    (type : dtype) : Except ε array :=
  let stdv := double.sqrt (double.div (double.fin 2) (double.ofInt (int.add fanIn fanOut)))
  normal B shape stdv (double.fin 0) type

end af

/-! ## `namespace fl` -/

namespace fl

/-- The class `fl::Variable` as far as this file uses it: a tensor and the flag given
to the constructor `Variable(array, calcGrad)`. -/
structure Variable where
  array : af.array
  calcGrad : Bool
  deriving DecidableEq, Repr

/-- The function `fl::input(arr)`. -/
def input (arr : af.array) : Variable := Variable.mk arr false

/-- The function `fl::noGrad(arr)`. -/
def noGrad (arr : af.array) : Variable := Variable.mk arr false

/-- The function `fl::param(arr)`. -/
def param (arr : af.array) : Variable := Variable.mk arr true

/-- The function `fl::constant(val, dims, type, calcGrad)`. -/
def constant (val : double) (dims : af.dim4) (type : af.dtype) (calcGrad : Bool) :
    Variable :=
  Variable.mk (af.constant val dims type) calcGrad

/-- The function `fl::constant(val, outputSize, inputSize, type, calcGrad)`. -/
def constant2 (val : double) (outputSize inputSize : ℤ) (type : af.dtype)
    (calcGrad : Bool) : Variable :=
  constant val (af.dim4.mk outputSize inputSize 1 1) type calcGrad

/-- The function `fl::uniform(dims, min, max, type, calcGrad)`. -/
def uniform {ε : Type} (B : af.Backend ε) (dims : af.dim4) (min max : double)
    (type : af.dtype) (calcGrad : Bool) : Except ε Variable := do
  let a ← af.uniform B dims min max type
  return Variable.mk a calcGrad

/-- The function `fl::uniform(outputSize, inputSize, min, max, type, calcGrad)`. -/
def uniform2 {ε : Type} (B : af.Backend ε) (outputSize inputSize : ℤ) (min max : double)
    (type : af.dtype) (calcGrad : Bool) : Except ε Variable :=
  uniform B (af.dim4.mk outputSize inputSize 1 1) min max type calcGrad

/-- The function `fl::normal(dims, stdv, mean, type, calcGrad)`. -/
def normal {ε : Type} (B : af.Backend ε) (dims : af.dim4) (stdv mean : double)
    (type : af.dtype) (calcGrad : Bool) : Except ε Variable := do
  let a ← af.normal B dims stdv mean type
  return Variable.mk a calcGrad

/-- The function `fl::normal(outputSize, inputSize, stdv, mean, type, calcGrad)`. -/
def normal2 {ε : Type} (B : af.Backend ε) (outputSize inputSize : ℤ) (stdv mean : double)
    (type : af.dtype) (calcGrad : Bool) : Except ε Variable :=
  normal B (af.dim4.mk outputSize inputSize 1 1) stdv mean type calcGrad

/-- The function `fl::kaimingUniform(shape, fanIn, type, calcGrad)`. -/
def kaimingUniform {ε : Type} (B : af.Backend ε) (shape : af.dim4) (fanIn : ℤ)
    (type : af.dtype) (calcGrad : Bool) : Except ε Variable := do
  let a ← af.kaimingUniform B shape fanIn type
  return Variable.mk a calcGrad

/-- The function `fl::kaimingNormal(shape, fanIn, type, calcGrad)`. -/
def kaimingNormal {ε : Type} (B : af.Backend ε) (shape : af.dim4) (fanIn : ℤ)
    (type : af.dtype) (calcGrad : Bool) : Except ε Variable := do
  let a ← af.kaimingNormal B shape fanIn type
  return Variable.mk a calcGrad

/-- The function `fl::glorotUniform(shape, fanIn, fanOut, type, calcGrad)`. -/
def glorotUniform {ε : Type} (B : af.Backend ε) (shape : af.dim4) (fanIn fanOut : ℤ)
    (type : af.dtype) (calcGrad : Bool) : Except ε Variable := do
  let a ← af.glorotUniform B shape fanIn fanOut type
  return Variable.mk a calcGrad

/-- The function `fl::glorotNormal(shape, fanIn, fanOut, type, calcGrad)`. -/
def glorotNormal {ε : Type} (B : af.Backend ε) (shape : af.dim4) (fanIn fanOut : ℤ)
    (type : af.dtype) (calcGrad : Bool) : Except ε Variable := do
  let a ← af.glorotNormal B shape fanIn fanOut type
  return Variable.mk a calcGrad

end fl

/-- The error names of the specification.  `Init.cpp` raises none of them itself. -/
inductive InitError where
  | InvalidShape
  | InvalidParameter
  | BackendFailure
  deriving DecidableEq, Repr

/-- A one-dimensional tensor of the given element type with the given elements. -/
def af.array.ofListAs (type : af.dtype) (l : List double) : af.array :=
  { dims := af.dim4.mk l.length 1 1 1, type := type, data := l }

/-- A one-dimensional tensor of element type `f64` with the given elements. -/
def af.array.ofList (l : List double) : af.array :=
  { dims := af.dim4.mk l.length 1 1 1, type := af.dtype.f64, data := l }

/-- A backend whose draws always succeed and return the given tensors. -/
def constBackend (u n : af.array) : af.Backend InitError :=
  { randu := fun _ _ => Except.ok u, randn := fun _ _ => Except.ok n }

/-- Modelled from the spec: the shape check of the draws `drawUniform(shape, dtype)` and
`drawNormal(shape, dtype)`, which are `af::randu` and `af::randn` of ArrayFire and are
not part of `Init.cpp`.  On a shape with a negative dimension the draw fails with
`InvalidShape` and returns no tensor; on any other shape it is the draw of `G`. -/
def checkedBackend (G : af.Backend InitError) : af.Backend InitError :=
  { randu := fun shape type =>
      if shape.hasNegative then Except.error InitError.InvalidShape else G.randu shape type
    randn := fun shape type =>
      if shape.hasNegative then Except.error InitError.InvalidShape else G.randn shape type }

/-! # Properties -/

/-! ## Rounding to an integer -/

theorem roundHE_ge_floor (t : ℚ) : ⌊t⌋ ≤ roundHE t := by
  unfold roundHE
  simp only
  split_ifs <;> omega

theorem roundHE_le_floor_succ (t : ℚ) : roundHE t ≤ ⌊t⌋ + 1 := by
  unfold roundHE
  simp only
  split_ifs <;> omega

theorem roundHE_sub_le (t : ℚ) : |(roundHE t : ℚ) - t| ≤ 1 / 2 := by
  have h1 := Int.floor_le t
  have h2 := Int.lt_floor_add_one t
  unfold roundHE
  simp only
  rw [abs_le]
  split_ifs with ha hb hc <;> push_cast <;> constructor <;> linarith

theorem roundHE_intCast (z : ℤ) : roundHE (z : ℚ) = z := by
  unfold roundHE
  simp

theorem roundHE_mono {a b : ℚ} (h : a ≤ b) : roundHE a ≤ roundHE b := by
  have hf : ⌊a⌋ ≤ ⌊b⌋ := Int.floor_mono h
  rcases hf.lt_or_eq with hlt | heq
  · have h1 := roundHE_le_floor_succ a
    have h2 := roundHE_ge_floor b
    omega
  · unfold roundHE
    simp only
    rw [heq]
    split_ifs <;> first | omega | (exfalso; linarith)

theorem roundHE_eq_of_abs_lt {t : ℚ} {m : ℤ} (h : |t - m| < 1 / 2) : roundHE t = m := by
  have h3 := roundHE_sub_le t
  rw [abs_lt] at h
  rw [abs_le] at h3
  have h4 : |((roundHE t - m : ℤ) : ℚ)| < 1 := by
    rw [abs_lt]; push_cast; constructor <;> linarith [h.1, h.2, h3.1, h3.2]
  have h5 : |roundHE t - m| < 1 := by exact_mod_cast h4
  have h6 := Int.abs_lt_one_iff.mp h5
  omega

/-! ## Rounding to a format -/

theorem two_zpow_pos (n : ℤ) : (0 : ℚ) < 2 ^ n := zpow_pos (by norm_num) n

theorem two_zpow_mono {a b : ℤ} (h : a ≤ b) : (2 : ℚ) ^ a ≤ 2 ^ b :=
  zpow_le_zpow_right₀ (by norm_num) h

theorem ilog2_le {q : ℚ} (hq : 0 < q) : (2 : ℚ) ^ Int.log 2 q ≤ q := by
  have h := Int.zpow_log_le_self (b := 2) (by norm_num) hq
  simpa using h

theorem ilog2_lt (q : ℚ) : q < (2 : ℚ) ^ (Int.log 2 q + 1) := by
  have h := Int.lt_zpow_succ_log_self (b := 2) (by norm_num) q
  simpa using h

theorem le_ilog2 {q : ℚ} {e : ℤ} (h1 : (2 : ℚ) ^ e ≤ q) : e ≤ Int.log 2 q := by
  have hq : 0 < q := lt_of_lt_of_le (two_zpow_pos e) h1
  rw [← Int.zpow_le_iff_le_log (by norm_num) hq]; simpa using h1

theorem ilog2_lt_of_lt {q : ℚ} {e : ℤ} (hq : 0 < q) (h2 : q < (2 : ℚ) ^ e) :
    Int.log 2 q < e := by
  rw [← Int.lt_zpow_iff_log_lt (by norm_num) hq]; simpa using h2

theorem ilog2_eq {q : ℚ} {e : ℤ} (h1 : (2 : ℚ) ^ e ≤ q) (h2 : q < 2 ^ (e + 1)) :
    Int.log 2 q = e := by
  have hq : 0 < q := lt_of_lt_of_le (two_zpow_pos e) h1
  have ha := le_ilog2 h1
  have hb := ilog2_lt_of_lt hq h2
  omega

theorem zpow_split (e : ℤ) (k : ℤ) : (2 : ℚ) ^ e = 2 ^ k * 2 ^ (e - k) := by
  rw [← zpow_add₀ (by norm_num : (2 : ℚ) ≠ 0)]
  congr 1
  ring

/-- A multiple of `2 ^ h` is an integer multiple of `2 ^ g` for `g ≤ h`. -/
theorem mul_zpow_eq_int_mul {g h : ℤ} (hgh : g ≤ h) (z : ℤ) :
    ∃ Z : ℤ, (z : ℚ) * 2 ^ h = Z * 2 ^ g := by
  refine ⟨z * 2 ^ (h - g).toNat, ?_⟩
  have e1 : (2 : ℚ) ^ h = 2 ^ (h - g) * 2 ^ g := by
    rw [← zpow_add₀ (by norm_num : (2 : ℚ) ≠ 0)]
    congr 1
    ring
  have e2 : (2 : ℚ) ^ (h - g) = 2 ^ (h - g).toNat := by
    rw [← zpow_natCast]
    congr 1
    omega
  rw [e1, e2]
  push_cast
  ring

theorem ulpExp_ge (F : FpFormat) (q : ℚ) : F.emin ≤ F.ulpExp q := le_max_right _ _

theorem ilog2_sub_le_ulpExp (F : FpFormat) (q : ℚ) :
    Int.log 2 q - (F.prec - 1) ≤ F.ulpExp q := le_max_left _ _

theorem ulpExp_of_normal (F : FpFormat) {q : ℚ} (h : (2 : ℚ) ^ (F.emin + F.prec - 1) ≤ q) :
    F.ulpExp q = Int.log 2 q - (F.prec - 1) := by
  have := le_ilog2 h
  unfold FpFormat.ulpExp
  omega

theorem ulpExp_mono (F : FpFormat) {a b : ℚ} (ha : 0 < a) (h : a ≤ b) :
    F.ulpExp a ≤ F.ulpExp b := by
  have hl : Int.log 2 a ≤ Int.log 2 b := Int.log_mono_right ha h
  unfold FpFormat.ulpExp
  omega

/-- Rounding does not jump over a multiple of a power of two that is at least the unit
in the last place: from above. -/
theorem rndPos_le_of_le_mul (F : FpFormat) {q : ℚ} {z h : ℤ} (hq : q ≤ z * 2 ^ h)
    (hh : F.ulpExp q ≤ h) : F.rndPos q ≤ z * 2 ^ h := by
  obtain ⟨Z, hZ⟩ := mul_zpow_eq_int_mul hh z
  have hs := two_zpow_pos (F.ulpExp q)
  rw [hZ] at hq ⊢
  unfold FpFormat.rndPos
  simp only
  apply mul_le_mul_of_nonneg_right _ hs.le
  have h1 : q / 2 ^ F.ulpExp q ≤ (Z : ℚ) := by
    rw [div_le_iff₀ hs]; exact hq
  have := roundHE_mono h1
  rw [roundHE_intCast] at this
  exact_mod_cast this

/-- Rounding does not jump over a multiple of a power of two that is at least the unit
in the last place: from below. -/
theorem le_rndPos_of_mul_le (F : FpFormat) {q : ℚ} {z h : ℤ} (hq : (z : ℚ) * 2 ^ h ≤ q)
    (hh : F.ulpExp q ≤ h) : (z : ℚ) * 2 ^ h ≤ F.rndPos q := by
  obtain ⟨Z, hZ⟩ := mul_zpow_eq_int_mul hh z
  have hs := two_zpow_pos (F.ulpExp q)
  rw [hZ] at hq ⊢
  unfold FpFormat.rndPos
  simp only
  apply mul_le_mul_of_nonneg_right _ hs.le
  have h1 : (Z : ℚ) ≤ q / 2 ^ F.ulpExp q := by
    rw [le_div_iff₀ hs]; exact hq
  have := roundHE_mono h1
  rw [roundHE_intCast] at this
  exact_mod_cast this

theorem rndPos_le_zpow (F : FpFormat) {q : ℚ} {n : ℤ} (hq : q ≤ 2 ^ n)
    (hn : F.ulpExp q ≤ n) : F.rndPos q ≤ 2 ^ n := by
  have := rndPos_le_of_le_mul F (q := q) (z := 1) (h := n) (by simpa using hq) hn
  simpa using this

theorem zpow_le_rndPos (F : FpFormat) {q : ℚ} {n : ℤ} (hq : (2 : ℚ) ^ n ≤ q)
    (hn : F.ulpExp q ≤ n) : (2 : ℚ) ^ n ≤ F.rndPos q := by
  have := le_rndPos_of_mul_le F (q := q) (z := 1) (h := n) (by simpa using hq) hn
  simpa using this

theorem rndPos_nonneg (F : FpFormat) {q : ℚ} (hq : 0 ≤ q) : 0 ≤ F.rndPos q := by
  have := le_rndPos_of_mul_le F (q := q) (z := 0) (h := F.ulpExp q) (by simpa using hq)
    (le_refl _)
  simpa using this

/-- The rounded value is an integer multiple of the unit in the last place. -/
theorem rndPos_eq_mul (F : FpFormat) (q : ℚ) :
    F.rndPos q = roundHE (q / 2 ^ F.ulpExp q) * 2 ^ F.ulpExp q := rfl

/-- A positive integer multiple of `2 ^ ulpExp q` is left unchanged. -/
theorem rndPos_of_int_mul (F : FpFormat) {q : ℚ} {Z : ℤ} (h : q = Z * 2 ^ F.ulpExp q) :
    F.rndPos q = q := by
  have hs := two_zpow_pos (F.ulpExp q)
  have h1 : q / 2 ^ F.ulpExp q = (Z : ℚ) := by
    rw [div_eq_iff hs.ne']; exact h
  rw [rndPos_eq_mul, h1, roundHE_intCast, ← h]

/-- A positive multiple `m * 2 ^ g` of a unit `2 ^ g`, `g ≥ emin`, that is at most
`2 ^ (g + prec)` is a number of the format. -/
theorem rndPos_of_mul (F : FpFormat) (hp : 1 ≤ F.prec) {v : ℚ} {m g : ℤ}
    (hv : v = m * 2 ^ g) (hg : F.emin ≤ g) (h0 : 0 < v) (hle : v ≤ 2 ^ (g + F.prec)) :
    F.rndPos v = v := by
  rcases hle.lt_or_eq with hlt | heq
  · have hl : Int.log 2 v < g + F.prec := ilog2_lt_of_lt h0 hlt
    have hu : F.ulpExp v ≤ g := by unfold FpFormat.ulpExp; omega
    obtain ⟨Z, hZ⟩ := mul_zpow_eq_int_mul hu m
    exact rndPos_of_int_mul F (hv.trans hZ)
  · have hl : Int.log 2 v = g + F.prec := by
      rw [heq]
      have := Int.log_zpow (R := ℚ) (b := 2) (by norm_num) (g + F.prec)
      simpa using this
    have hu : F.ulpExp v = g + 1 := by unfold FpFormat.ulpExp; omega
    obtain ⟨Z, hZ⟩ := mul_zpow_eq_int_mul (show g + 1 ≤ g + F.prec by omega) 1
    apply rndPos_of_int_mul F (Z := Z)
    rw [hu, heq, ← hZ]
    simp

theorem rndPos_zpow (F : FpFormat) (hp : 1 ≤ F.prec) {n : ℤ} (hn : F.emin ≤ n) :
    F.rndPos (2 ^ n) = 2 ^ n :=
  rndPos_of_mul F hp (m := 1) (g := n) (by simp) hn (two_zpow_pos n)
    (two_zpow_mono (by omega))

/-- The rounded value is at most `2 ^ (ulpExp q + prec)`. -/
theorem rndPos_le_top (F : FpFormat) (hp : 1 ≤ F.prec) (q : ℚ) :
    F.rndPos q ≤ 2 ^ (F.ulpExp q + F.prec) := by
  apply rndPos_le_zpow F _ (by omega)
  have h1 := ilog2_lt q
  have h2 := ilog2_sub_le_ulpExp F q
  exact le_trans h1.le (two_zpow_mono (by omega))

theorem rndPos_idem (F : FpFormat) (hp : 1 ≤ F.prec) {q : ℚ} (hq : 0 < q) :
    F.rndPos (F.rndPos q) = F.rndPos q := by
  rcases (rndPos_nonneg F hq.le).lt_or_eq with hpos | hzero
  · exact rndPos_of_mul F hp (rndPos_eq_mul F q) (ulpExp_ge F q) hpos (rndPos_le_top F hp q)
  · rw [← hzero]
    simp [FpFormat.rndPos, roundHE]

theorem rndPos_mono (F : FpFormat) (hp : 1 ≤ F.prec) {a b : ℚ} (ha : 0 < a) (h : a ≤ b) :
    F.rndPos a ≤ F.rndPos b := by
  have hb : 0 < b := lt_of_lt_of_le ha h
  have hu := ulpExp_mono F ha h
  rcases hu.lt_or_eq with hlt | heq
  · have hn : F.ulpExp b = Int.log 2 b - (F.prec - 1) := by
      have := ulpExp_ge F a
      unfold FpFormat.ulpExp at hlt ⊢
      omega
    have hla : Int.log 2 a + 1 ≤ Int.log 2 b := by
      have := ilog2_sub_le_ulpExp F a
      omega
    have h1 : a ≤ 2 ^ Int.log 2 b := le_trans (ilog2_lt a).le (two_zpow_mono hla)
    calc F.rndPos a ≤ 2 ^ Int.log 2 b := rndPos_le_zpow F h1 (by omega)
      _ ≤ F.rndPos b := zpow_le_rndPos F (ilog2_le hb) (by omega)
  · unfold FpFormat.rndPos
    simp only
    rw [heq]
    have hs := two_zpow_pos (F.ulpExp b)
    apply mul_le_mul_of_nonneg_right _ hs.le
    have : roundHE (a / 2 ^ F.ulpExp b) ≤ roundHE (b / 2 ^ F.ulpExp b) :=
      roundHE_mono (div_le_div_of_nonneg_right h hs.le)
    exact_mod_cast this

/-- Absolute error of rounding: half a unit in the last place. -/
theorem rndPos_abs_err (F : FpFormat) (q : ℚ) :
    |F.rndPos q - q| ≤ 2 ^ F.ulpExp q / 2 := by
  have hs := two_zpow_pos (F.ulpExp q)
  have h := roundHE_sub_le (q / 2 ^ F.ulpExp q)
  rw [rndPos_eq_mul]
  have e : (roundHE (q / 2 ^ F.ulpExp q) : ℚ) * 2 ^ F.ulpExp q - q =
      ((roundHE (q / 2 ^ F.ulpExp q) : ℚ) - q / 2 ^ F.ulpExp q) * 2 ^ F.ulpExp q := by
    field_simp
  rw [e, abs_mul, abs_of_pos hs]
  calc |(roundHE (q / 2 ^ F.ulpExp q) : ℚ) - q / 2 ^ F.ulpExp q| * 2 ^ F.ulpExp q
      ≤ 1 / 2 * 2 ^ F.ulpExp q := mul_le_mul_of_nonneg_right h hs.le
    _ = 2 ^ F.ulpExp q / 2 := by ring

/-- Relative error of rounding a normal number: at most `2 ^ (-prec)`. -/
theorem rndPos_rel_err (F : FpFormat) {q : ℚ} (hq : (2 : ℚ) ^ (F.emin + F.prec - 1) ≤ q) :
    |F.rndPos q - q| ≤ q / 2 ^ F.prec := by
  have hq0 : 0 < q := lt_of_lt_of_le (two_zpow_pos _) hq
  have h := rndPos_abs_err F q
  have h1 := ilog2_le hq0
  rw [ulpExp_of_normal F hq] at h
  have hP := two_zpow_pos F.prec
  have e1 : (2 : ℚ) ^ (Int.log 2 q - (F.prec - 1)) = 2 ^ Int.log 2 q * 2 / 2 ^ F.prec := by
    rw [show Int.log 2 q - (F.prec - 1) = Int.log 2 q + 1 - F.prec by ring,
      zpow_sub₀ (by norm_num : (2 : ℚ) ≠ 0), zpow_add₀ (by norm_num : (2 : ℚ) ≠ 0), zpow_one]
  have e2 : (2 : ℚ) ^ Int.log 2 q * 2 / 2 ^ F.prec / 2 = 2 ^ Int.log 2 q / 2 ^ F.prec := by
    field_simp
    ring
  have : (2 : ℚ) ^ (Int.log 2 q - (F.prec - 1)) / 2 ≤ q / 2 ^ F.prec := by
    rw [e1, e2]
    exact div_le_div_of_nonneg_right h1 hP.le
  linarith

theorem rndPos_eq_of (F : FpFormat) {q : ℚ} {e m : ℤ} (he : F.emin + F.prec - 1 ≤ e)
    (h1 : (2 : ℚ) ^ e ≤ q) (h2 : q < 2 ^ (e + 1))
    (h3 : |q / 2 ^ (e - (F.prec - 1)) - m| < 1 / 2) :
    F.rndPos q = m * 2 ^ (e - (F.prec - 1)) := by
  have hu : F.ulpExp q = e - (F.prec - 1) := by
    unfold FpFormat.ulpExp
    rw [ilog2_eq h1 h2]
    omega
  rw [rndPos_eq_mul, hu, roundHE_eq_of_abs_lt h3]

/-- The rounded value is an integer multiple of `2 ^ emin`. -/
theorem rndPos_multiple (F : FpFormat) (q : ℚ) : ∃ k : ℤ, F.rndPos q = k * 2 ^ F.emin := by
  rw [rndPos_eq_mul]
  exact mul_zpow_eq_int_mul (ulpExp_ge F q) _

/-! ### `rnd` -/

theorem rnd_zero (F : FpFormat) : F.rnd 0 = 0 := by simp [FpFormat.rnd]

theorem rnd_of_pos (F : FpFormat) {q : ℚ} (hq : 0 < q) : F.rnd q = F.rndPos q := by
  simp [FpFormat.rnd, hq]

theorem rnd_of_neg (F : FpFormat) {q : ℚ} (hq : q < 0) : F.rnd q = -F.rndPos (-q) := by
  simp [FpFormat.rnd, hq, not_lt.mpr hq.le]

theorem rnd_neg (F : FpFormat) (q : ℚ) : F.rnd (-q) = -F.rnd q := by
  rcases lt_trichotomy q 0 with h | h | h
  · rw [rnd_of_neg F h, rnd_of_pos F (neg_pos.mpr h), neg_neg]
  · subst h; simp [rnd_zero]
  · rw [rnd_of_pos F h, rnd_of_neg F (neg_neg_of_pos h), neg_neg]

theorem rnd_nonneg (F : FpFormat) {q : ℚ} (hq : 0 ≤ q) : 0 ≤ F.rnd q := by
  rcases hq.lt_or_eq with h | h
  · rw [rnd_of_pos F h]; exact rndPos_nonneg F hq
  · rw [← h, rnd_zero]

theorem rnd_nonpos (F : FpFormat) {q : ℚ} (hq : q ≤ 0) : F.rnd q ≤ 0 := by
  have := rnd_nonneg F (neg_nonneg.mpr hq)
  rw [rnd_neg] at this
  linarith

theorem rnd_mono (F : FpFormat) (hp : 1 ≤ F.prec) {a b : ℚ} (h : a ≤ b) :
    F.rnd a ≤ F.rnd b := by
  rcases lt_trichotomy a 0 with ha | ha | ha
  · rcases lt_or_le b 0 with hb | hb
    · rw [rnd_of_neg F ha, rnd_of_neg F hb]
      exact neg_le_neg (rndPos_mono F hp (neg_pos.mpr hb) (neg_le_neg h))
    · exact le_trans (rnd_nonpos F ha.le) (rnd_nonneg F hb)
  · subst ha
    rw [rnd_zero]; exact rnd_nonneg F h
  · have hb : 0 < b := lt_of_lt_of_le ha h
    rw [rnd_of_pos F ha, rnd_of_pos F hb]
    exact rndPos_mono F hp ha h

theorem rnd_idem (F : FpFormat) (hp : 1 ≤ F.prec) (q : ℚ) : F.rnd (F.rnd q) = F.rnd q := by
  rcases lt_trichotomy q 0 with h | h | h
  · rw [rnd_of_neg F h, rnd_neg]
    rcases (rndPos_nonneg F (neg_pos.mpr h).le).lt_or_eq with hp1 | hz
    · rw [rnd_of_pos F hp1, rndPos_idem F hp (neg_pos.mpr h)]
    · rw [← hz, rnd_zero]
  · subst h; simp [rnd_zero]
  · rw [rnd_of_pos F h]
    rcases (rndPos_nonneg F h.le).lt_or_eq with hp1 | hz
    · rw [rnd_of_pos F hp1, rndPos_idem F hp h]
    · rw [← hz, rnd_zero]

/-- Relative error of rounding a number of the normal range: at most `2 ^ (-prec)`. -/
theorem rnd_rel_err (F : FpFormat) {q : ℚ} (hq : (2 : ℚ) ^ (F.emin + F.prec - 1) ≤ q) :
    |F.rnd q - q| ≤ q / 2 ^ F.prec := by
  rw [rnd_of_pos F (lt_of_lt_of_le (two_zpow_pos _) hq)]
  exact rndPos_rel_err F hq

theorem rnd_multiple (F : FpFormat) (q : ℚ) : ∃ k : ℤ, F.rnd q = k * 2 ^ F.emin := by
  rcases lt_trichotomy q 0 with h | h | h
  · obtain ⟨k, hk⟩ := rndPos_multiple F (-q)
    exact ⟨-k, by rw [rnd_of_neg F h, hk]; push_cast; ring⟩
  · exact ⟨0, by subst h; simp [rnd_zero]⟩
  · obtain ⟨k, hk⟩ := rndPos_multiple F q
    exact ⟨k, by rw [rnd_of_pos F h, hk]⟩

theorem rnd_zpow (F : FpFormat) (hp : 1 ≤ F.prec) {n : ℤ} (hn : F.emin ≤ n) :
    F.rnd (2 ^ n) = 2 ^ n := by
  rw [rnd_of_pos F (two_zpow_pos n), rndPos_zpow F hp hn]

/-- Rounding does not jump over a number that rounding leaves unchanged. -/
theorem rnd_le_of_le (F : FpFormat) (hp : 1 ≤ F.prec) {q f : ℚ} (hf : F.rnd f = f)
    (h : q ≤ f) : F.rnd q ≤ f := by
  have := rnd_mono F hp h
  rwa [hf] at this

theorem le_rnd_of_le (F : FpFormat) (hp : 1 ≤ F.prec) {q f : ℚ} (hf : F.rnd f = f)
    (h : f ≤ q) : f ≤ F.rnd q := by
  have := rnd_mono F hp h
  rwa [hf] at this

theorem rnd_eq_of_pos (F : FpFormat) {q : ℚ} {e m : ℤ} (he : F.emin + F.prec - 1 ≤ e)
    (h1 : (2 : ℚ) ^ e ≤ q) (h2 : q < 2 ^ (e + 1))
    (h3 : |q / 2 ^ (e - (F.prec - 1)) - m| < 1 / 2) :
    F.rnd q = m * 2 ^ (e - (F.prec - 1)) := by
  rw [rnd_of_pos F (lt_of_lt_of_le (two_zpow_pos e) h1)]
  exact rndPos_eq_of F he h1 h2 h3

/-- A positive multiple `m * 2 ^ g` of a unit `2 ^ g`, `g ≥ emin`, that is at most
`2 ^ (g + prec)` is left unchanged. -/
theorem rnd_of_mul (F : FpFormat) (hp : 1 ≤ F.prec) {v : ℚ} {m g : ℤ}
    (hv : v = m * 2 ^ g) (hg : F.emin ≤ g) (h0 : 0 < v) (hle : v ≤ 2 ^ (g + F.prec)) :
    F.rnd v = v := by
  rw [rnd_of_pos F h0]
  exact rndPos_of_mul F hp hv hg h0 hle

/-- A number of a format is a number of every format that has at least its precision
and its range of exponents. -/
theorem rnd_of_within (F G : FpFormat) (hp : 1 ≤ F.prec) (h1 : F.prec ≤ G.prec)
    (h2 : G.emin ≤ F.emin) {x : ℚ} (hx : F.rnd x = x) : G.rnd x = x := by
  have key : ∀ y : ℚ, 0 < y → F.rnd y = y → G.rnd y = y := by
    intro y hy hyx
    rw [rnd_of_pos F hy] at hyx
    have hg := ulpExp_ge F y
    have htop := rndPos_le_top F hp y
    rw [hyx] at htop
    have hm := rndPos_eq_mul F y
    rw [hyx] at hm
    exact rnd_of_mul G (by omega) hm (by omega) hy
      (le_trans htop (two_zpow_mono (by omega)))
  rcases lt_trichotomy x 0 with h | h | h
  · have h3 : F.rnd (-x) = -x := by rw [rnd_neg, hx]
    have h4 := key (-x) (neg_pos.mpr h) h3
    rw [rnd_neg] at h4
    linarith
  · subst h; exact rnd_zero G
  · exact key x h hx

/-! ### The overflow test -/

theorem roundF_of_lt (F : FpFormat) {q : ℚ} (h1 : -2 ^ F.emax < F.rnd q)
    (h2 : F.rnd q < 2 ^ F.emax) : F.round q = double.fin (F.rnd q) := by
  unfold FpFormat.round
  rw [if_neg (not_le.mpr h2), if_neg (not_le.mpr h1)]

/-- A number of the format rounds to itself. -/
theorem round_of_isNum (F : FpFormat) {q : ℚ} (h : F.isNum q) : F.round q = double.fin q := by
  obtain ⟨h1, h2⟩ := h
  rw [abs_lt] at h2
  rw [roundF_of_lt F (by rw [h1]; exact h2.1) (by rw [h1]; exact h2.2), h1]

theorem maxNum_pos (F : FpFormat) (hp : 1 ≤ F.prec) : 0 < F.maxNum := by
  unfold FpFormat.maxNum
  have h : (2 : ℚ) ^ ((F.emax : ℤ) - F.prec) < 2 ^ (F.emax : ℤ) :=
    zpow_lt_zpow_right₀ (by norm_num) (by omega)
  rw [zpow_natCast] at h
  linarith

theorem maxNum_lt (F : FpFormat) : F.maxNum < 2 ^ F.emax := by
  unfold FpFormat.maxNum
  have := two_zpow_pos ((F.emax : ℤ) - F.prec)
  linarith

theorem rnd_maxNum (F : FpFormat) (hF : F.valid) : F.rnd F.maxNum = F.maxNum := by
  obtain ⟨hp, hs, he⟩ := hF
  obtain ⟨Z, hZ⟩ := mul_zpow_eq_int_mul (show (F.emax : ℤ) - F.prec ≤ (F.emax : ℤ) by omega) 1
  have e : F.maxNum = ((Z - 1 : ℤ) : ℚ) * 2 ^ ((F.emax : ℤ) - F.prec) := by
    unfold FpFormat.maxNum
    push_cast
    rw [sub_mul, ← hZ, zpow_natCast]
    ring
  apply rnd_of_mul F hp e (by omega) (maxNum_pos F hp)
  have : (F.emax : ℤ) - F.prec + F.prec = (F.emax : ℤ) := by ring
  rw [this, zpow_natCast]
  exact (maxNum_lt F).le

theorem isNum_maxNum (F : FpFormat) (hF : F.valid) : F.isNum F.maxNum :=
  ⟨rnd_maxNum F hF, by rw [abs_of_pos (maxNum_pos F hF.1)]; exact maxNum_lt F⟩

theorem isNum_zero (F : FpFormat) : F.isNum 0 := ⟨rnd_zero F, by simp⟩

theorem isNum_neg (F : FpFormat) {q : ℚ} (h : F.isNum q) : F.isNum (-q) := by
  obtain ⟨h1, h2⟩ := h
  exact ⟨by rw [rnd_neg, h1], by rwa [abs_neg]⟩

/-! ## The affine map of `uniform` -/

/-- The largest number of a format below 1 is `1 - 2 ^ (-prec)`. -/
theorem rnd_fixed_lt_one (F : FpFormat) (hF : F.valid) {x : ℚ} (hx : F.rnd x = x)
    (h1 : x < 1) : x ≤ 1 - 1 / 2 ^ F.prec := by
  obtain ⟨hp, hs, _⟩ := hF
  have hP := two_zpow_pos F.prec
  have hhalf : (1 : ℚ) / 2 ^ F.prec ≤ 1 / 2 := by
    have : (2 : ℚ) ^ (1 : ℤ) ≤ 2 ^ F.prec := two_zpow_mono hp
    rw [zpow_one] at this
    exact one_div_le_one_div_of_le (by norm_num) this
  rcases le_or_lt x 0 with h0 | h0
  · linarith
  · have hlog : Int.log 2 x < 0 := ilog2_lt_of_lt h0 (by simpa using h1)
    rcases (show Int.log 2 x ≤ -2 ∨ Int.log 2 x = -1 by omega) with he | he
    · have h2 := ilog2_lt x
      have h3 : (2 : ℚ) ^ (Int.log 2 x + 1) ≤ 2 ^ (-1 : ℤ) := two_zpow_mono (by omega)
      have h4 : (2 : ℚ) ^ (-1 : ℤ) = 1 / 2 := by norm_num
      have h5 : x < 1 / 2 := lt_of_lt_of_le h2 (h3.trans h4.le)
      linarith
    · have hu : F.ulpExp x = -F.prec := by unfold FpFormat.ulpExp; omega
      rw [rnd_of_pos F h0, rndPos_eq_mul, hu] at hx
      obtain ⟨Z, hZ⟩ := mul_zpow_eq_int_mul (show -F.prec ≤ (0 : ℤ) by omega) 1
      have hZ1 : (1 : ℚ) = Z * 2 ^ (-F.prec) := by simpa using hZ
      have hN := two_zpow_pos (-F.prec)
      generalize roundHE (x / 2 ^ (-F.prec)) = M at hx
      have hM : (M : ℚ) < (Z : ℚ) := by
        have : (M : ℚ) * 2 ^ (-F.prec) < Z * 2 ^ (-F.prec) := by rw [hx, ← hZ1]; exact h1
        exact lt_of_mul_lt_mul_right this hN.le
      have hM1 : M < Z := by exact_mod_cast hM
      have hM2 : M ≤ Z - 1 := by omega
      have hM3 : (M : ℚ) ≤ Z - 1 := by exact_mod_cast hM2
      have e : (1 : ℚ) / 2 ^ F.prec = 2 ^ (-F.prec) := by
        rw [zpow_neg, one_div]
      rw [e, ← hx]
      calc (M : ℚ) * 2 ^ (-F.prec) ≤ (Z - 1) * 2 ^ (-F.prec) :=
            mul_le_mul_of_nonneg_right hM3 hN.le
        _ = 1 - 2 ^ (-F.prec) := by rw [sub_mul, ← hZ1, one_mul]

/-- A positive multiple of `2 ^ emin` that is at most `2 ^ (emin + prec)` is left
unchanged: the subnormal numbers and the first normal binade. -/
theorem rnd_of_small_multiple (F : FpFormat) (hp : 1 ≤ F.prec) {v : ℚ} {k : ℤ}
    (hv : v = k * 2 ^ F.emin) (h0 : 0 < v) (hle : v ≤ 2 ^ (F.emin + F.prec)) :
    F.rnd v = v :=
  rnd_of_mul F hp hv (le_refl _) h0 hle

/-- The product of a draw below 1 with the least number `c` of the format that is not
below a difference `D` rounds to at most `D`. -/
theorem scaled_draw_le (F : FpFormat) (hF : F.valid) {D c x : ℚ} (hD : 0 ≤ D)
    (hDm : ∃ k : ℤ, D = k * 2 ^ F.emin) (hc0 : 0 ≤ c)
    (hc : F.rnd c = c) (hleast : ∀ f : ℚ, F.rnd f = f → D ≤ f → c ≤ f)
    (hx : F.rnd x = x) (hx1 : x < 1) : F.rnd (c * x) ≤ D := by
  have hp := hF.1
  have hyc : c * x ≤ c := by nlinarith
  have hpc : F.rnd (c * x) ≤ c := rnd_le_of_le F hp hc hyc
  rcases le_or_lt c D with hle | hlt
  · exact le_trans hpc hle
  · by_contra hcon
    push_neg at hcon
    have hcp : c ≤ F.rnd (c * x) := hleast _ (rnd_idem F hp _) hcon.le
    have hpeq : F.rnd (c * x) = c := le_antisymm hpc hcp
    -- the difference is not a number of the format
    have hDn : F.rnd D ≠ D := by
      intro h
      have := hleast D h (le_refl _)
      linarith
    have hD0 : 0 < D := by
      rcases hD.lt_or_eq with h | h
      · exact h
      · rw [← h, rnd_zero] at hDn
        exact absurd rfl hDn
    have hDbig : (2 : ℚ) ^ (F.emin + F.prec) < D := by
      by_contra hcc
      push_neg at hcc
      obtain ⟨k, hk⟩ := hDm
      exact hDn (rnd_of_small_multiple F hp hk hD0 hcc)
    -- the product is in the normal range
    have hynorm : (2 : ℚ) ^ (F.emin + F.prec - 1) ≤ c * x := by
      by_contra hcc
      push_neg at hcc
      have h1 := rnd_le_of_le F hp (rnd_zpow F hp (n := F.emin + F.prec - 1) (by omega)) hcc.le
      rw [hpeq] at h1
      have h2 : (2 : ℚ) ^ (F.emin + F.prec - 1) ≤ 2 ^ (F.emin + F.prec) :=
        two_zpow_mono (by omega)
      linarith
    have hcpos : 0 < c := lt_trans hD0 hlt
    have herr := rnd_rel_err F hynorm
    rw [hpeq, abs_le] at herr
    have hx2 := rnd_fixed_lt_one F hF hx hx1
    have hP := two_zpow_pos F.prec
    generalize (2 : ℚ) ^ F.prec = P at herr hx2 hP
    have h1 : c - c * x ≤ c * x / P := herr.2
    rw [le_div_iff₀ hP] at h1
    have hu : x * P ≤ P - 1 := by
      have := mul_le_mul_of_nonneg_right hx2 hP.le
      have e : (1 - 1 / P) * P = P - 1 := by field_simp
      linarith
    have key : c * (P - x * P - x) ≤ 0 := by nlinarith
    have hpos : 0 < P - x * P - x := by nlinarith
    have := mul_pos hcpos hpos
    linarith

/-- A difference of two numbers of a format is an integer multiple of `2 ^ emin`. -/
theorem sub_multiple (F : FpFormat) {a b : ℚ} (ha : F.rnd a = a) (hb : F.rnd b = b) :
    ∃ k : ℤ, a + -b = k * 2 ^ F.emin := by
  obtain ⟨ka, hka⟩ := rnd_multiple F a
  obtain ⟨kb, hkb⟩ := rnd_multiple F b
  rw [ha] at hka
  rw [hb] at hkb
  exact ⟨ka - kb, by rw [hka, hkb]; push_cast; ring⟩

/-- Each element of `af::uniform` in rational terms.  With bounds `mn ≤ mx` and a draw `x`
in `[0, 1)`, all numbers of the format `F` of the elements, the difference `mx - mn` is
rounded to binary64 and then to `F`, and the product and the sum are rounded to `F`: the
value is in `[mn, mx]`, and no intermediate value exceeds a bound `M` of the difference
that is a number of the format. -/
theorem uniform_value_bounds (F : FpFormat) (hF : F.valid) (hw : F.within binary64)
    {mn mx x M : ℚ} (hmn : F.rnd mn = mn) (hmx : F.rnd mx = mx) (h : mn ≤ mx)
    (hM : F.rnd M = M) (hfit : mx + -mn ≤ M)
    (hx : F.rnd x = x) (hx0 : 0 ≤ x) (hx1 : x < 1) :
    0 ≤ binary64.rnd (mx + -mn) ∧ binary64.rnd (mx + -mn) ≤ M ∧
      0 ≤ F.rnd (binary64.rnd (mx + -mn)) ∧ F.rnd (binary64.rnd (mx + -mn)) ≤ M ∧
      0 ≤ F.rnd (F.rnd (binary64.rnd (mx + -mn)) * x) ∧
      F.rnd (F.rnd (binary64.rnd (mx + -mn)) * x) ≤ M ∧
      mn ≤ F.rnd (F.rnd (F.rnd (binary64.rnd (mx + -mn)) * x) + mn) ∧
      F.rnd (F.rnd (F.rnd (binary64.rnd (mx + -mn)) * x) + mn) ≤ mx := by
  have hp := hF.1
  obtain ⟨w1, w2, _⟩ := hw
  have h64 : (1 : ℤ) ≤ binary64.prec := by decide
  have hD : 0 ≤ mx + -mn := by linarith
  have hd0 : 0 ≤ binary64.rnd (mx + -mn) := rnd_nonneg binary64 hD
  have hdM : binary64.rnd (mx + -mn) ≤ M :=
    rnd_le_of_le binary64 h64 (rnd_of_within F binary64 hp w1 w2 hM) hfit
  have hc0 : 0 ≤ F.rnd (binary64.rnd (mx + -mn)) := rnd_nonneg F hd0
  have hcM : F.rnd (binary64.rnd (mx + -mn)) ≤ M := rnd_le_of_le F hp hM hdM
  have hleast : ∀ f : ℚ, F.rnd f = f → mx + -mn ≤ f →
      F.rnd (binary64.rnd (mx + -mn)) ≤ f := by
    intro f hf hle
    exact rnd_le_of_le F hp hf
      (rnd_le_of_le binary64 h64 (rnd_of_within F binary64 hp w1 w2 hf) hle)
  have hp0 : 0 ≤ F.rnd (F.rnd (binary64.rnd (mx + -mn)) * x) :=
    rnd_nonneg F (mul_nonneg hc0 hx0)
  have hpD := scaled_draw_le F hF hD (sub_multiple F hmx hmn) hc0 (rnd_idem F hp _) hleast
    hx hx1
  refine ⟨hd0, hdM, hc0, hcM, hp0, le_trans hpD hfit, ?_, ?_⟩
  · exact le_rnd_of_le F hp hmn (by linarith)
  · exact rnd_le_of_le F hp hmx (by linarith)

/-! ## The formats binary64 and binary32 -/

theorem binary64_valid : binary64.valid := by decide

theorem binary32_valid : binary32.valid := by decide

theorem binary64_within : binary64.within binary64 := by decide

theorem binary32_within : binary32.within binary64 := by decide

theorem rnd64_zero : rnd64 0 = 0 := rnd_zero binary64

theorem rnd64_neg (q : ℚ) : rnd64 (-q) = -rnd64 q := rnd_neg binary64 q

/-- Relative error of rounding a number of the normal range: at most `2 ^ (-53)`. -/
theorem rnd64_rel_err {q : ℚ} (hq : (2 : ℚ) ^ (-1022 : ℤ) ≤ q) :
    |rnd64 q - q| ≤ q / 2 ^ (53 : ℕ) := by
  have h := rnd_rel_err binary64 (q := q) hq
  have e : (2 : ℚ) ^ binary64.prec = 2 ^ (53 : ℕ) := zpow_natCast 2 53
  rw [e] at h
  exact h

theorem rnd64_zpow {n : ℤ} (hn : -1074 ≤ n) : rnd64 (2 ^ n) = 2 ^ n :=
  rnd_zpow binary64 binary64_valid.1 hn

/-- Rounding does not jump over a number that rounding leaves unchanged. -/
theorem rnd64_le_of_le {q f : ℚ} (hf : rnd64 f = f) (h : q ≤ f) : rnd64 q ≤ f :=
  rnd_le_of_le binary64 binary64_valid.1 hf h

theorem le_rnd64_of_le {q f : ℚ} (hf : rnd64 f = f) (h : f ≤ q) : f ≤ rnd64 q :=
  le_rnd_of_le binary64 binary64_valid.1 hf h

theorem rnd64_eq_of_pos {q : ℚ} {e m : ℤ} (he : -1022 ≤ e) (h1 : (2 : ℚ) ^ e ≤ q)
    (h2 : q < 2 ^ (e + 1)) (h3 : |q / 2 ^ (e - 52) - m| < 1 / 2) :
    rnd64 q = m * 2 ^ (e - 52) :=
  rnd_eq_of_pos binary64 he h1 h2 h3

theorem rnd32_eq_of_pos {q : ℚ} {e m : ℤ} (he : -126 ≤ e) (h1 : (2 : ℚ) ^ e ≤ q)
    (h2 : q < 2 ^ (e + 1)) (h3 : |q / 2 ^ (e - 23) - m| < 1 / 2) :
    binary32.rnd q = m * 2 ^ (e - 23) :=
  rnd_eq_of_pos binary32 he h1 h2 h3

theorem emax64 : binary64.emax = 1024 := rfl

theorem round_of_lt {q : ℚ} (h1 : -2 ^ 1024 < rnd64 q) (h2 : rnd64 q < 2 ^ 1024) :
    double.round q = double.fin (rnd64 q) := by
  have h := roundF_of_lt binary64 (q := q)
  rw [emax64] at h
  exact h h1 h2

theorem maxNum64 : binary64.maxNum = dblMax := by
  unfold FpFormat.maxNum dblMax
  rw [emax64, show ((1024 : ℕ) : ℤ) - binary64.prec = ((971 : ℕ) : ℤ) by decide, zpow_natCast]

theorem rnd64_dblMax : rnd64 dblMax = dblMax := by
  have := rnd_maxNum binary64 binary64_valid
  rwa [maxNum64] at this

theorem isDbl_neg {q : ℚ} (h : isDbl q) : isDbl (-q) := by
  obtain ⟨h1, h2⟩ := h
  exact ⟨by rw [rnd64_neg, h1], by rwa [abs_neg]⟩

/-! ## The rounded square root -/

theorem natSqrt_sq_le {t : ℚ} (ht : 0 ≤ t) : ((Nat.sqrt ⌊t⌋₊ : ℕ) : ℚ) * Nat.sqrt ⌊t⌋₊ ≤ t := by
  have h := Nat.floor_le ht
  have h1 : Nat.sqrt ⌊t⌋₊ * Nat.sqrt ⌊t⌋₊ ≤ ⌊t⌋₊ := Nat.sqrt_le _
  have h2 : ((Nat.sqrt ⌊t⌋₊ * Nat.sqrt ⌊t⌋₊ : ℕ) : ℚ) ≤ (⌊t⌋₊ : ℚ) := by exact_mod_cast h1
  push_cast at h2
  linarith

theorem lt_natSqrt_succ_sq (t : ℚ) :
    t < ((Nat.sqrt ⌊t⌋₊ : ℕ) + 1 : ℚ) * ((Nat.sqrt ⌊t⌋₊ : ℕ) + 1) := by
  have h := Nat.lt_floor_add_one t
  have h1 : ⌊t⌋₊ < (Nat.sqrt ⌊t⌋₊ + 1) * (Nat.sqrt ⌊t⌋₊ + 1) := Nat.lt_succ_sqrt _
  have h2 : ⌊t⌋₊ + 1 ≤ (Nat.sqrt ⌊t⌋₊ + 1) * (Nat.sqrt ⌊t⌋₊ + 1) := h1
  have h3 : ((⌊t⌋₊ + 1 : ℕ) : ℚ) ≤ (((Nat.sqrt ⌊t⌋₊ + 1) * (Nat.sqrt ⌊t⌋₊ + 1) : ℕ) : ℚ) := by
    exact_mod_cast h2
  push_cast at h3
  linarith

/-- The integer `roundSqrt t` is within `1/2` of the root of `t`: some `c ≥ m - 1/2` has
`c² ≤ t`, and `t ≤ (m + 1/2)²`. -/
theorem roundSqrt_struct {t : ℚ} (ht : 0 ≤ t) :
    ∃ c : ℚ, 0 ≤ c ∧ (roundSqrt t : ℚ) - 1 / 2 ≤ c ∧ c ^ 2 ≤ t ∧
      t ≤ ((roundSqrt t : ℚ) + 1 / 2) ^ 2 := by
  have h1 := natSqrt_sq_le ht
  have h2 := lt_natSqrt_succ_sq t
  unfold roundSqrt
  simp only
  generalize Nat.sqrt ⌊t⌋₊ = r at h1 h2
  have hr : (0 : ℚ) ≤ r := Nat.cast_nonneg r
  by_cases hA : t < (r : ℚ) * r + r + 1 / 4
  · rw [if_pos hA]
    exact ⟨r, hr, by linarith, by nlinarith, by nlinarith⟩
  · rw [if_neg hA]
    by_cases hB : (r : ℚ) * r + r + 1 / 4 < t
    · rw [if_pos hB]
      refine ⟨r + 1 / 2, by linarith, by push_cast; linarith, by nlinarith, ?_⟩
      push_cast; nlinarith
    · rw [if_neg hB]
      have hE : t = (r : ℚ) * r + r + 1 / 4 := le_antisymm (not_lt.mp hB) (not_lt.mp hA)
      by_cases hC : r % 2 = 0
      · rw [if_pos hC]
        exact ⟨r, hr, by linarith, by nlinarith, by nlinarith⟩
      · rw [if_neg hC]
        refine ⟨r + 1 / 2, by linarith, by push_cast; linarith, by nlinarith, ?_⟩
        push_cast; nlinarith

theorem roundSqrt_eq_of {t : ℚ} {m : ℕ} (hm : 1 ≤ m) (h1 : ((m : ℚ) - 1 / 2) ^ 2 < t)
    (h2 : t < ((m : ℚ) + 1 / 2) ^ 2) : roundSqrt t = m := by
  have ht : 0 ≤ t := le_trans (sq_nonneg _) h1.le
  have a1 := natSqrt_sq_le ht
  have a2 := lt_natSqrt_succ_sq t
  unfold roundSqrt
  simp only
  generalize Nat.sqrt ⌊t⌋₊ = r at a1 a2
  have hr : (0 : ℚ) ≤ r := Nat.cast_nonneg r
  have hm' : (1 : ℚ) ≤ m := by exact_mod_cast hm
  have b1 : (r : ℚ) < m + 1 / 2 := by
    by_contra hc
    push_neg at hc
    nlinarith
  have b2 : (m : ℚ) - 1 / 2 < r + 1 := by
    by_contra hc
    push_neg at hc
    nlinarith
  have c1 : r ≤ m := by
    have : (r : ℚ) < m + 1 := by linarith
    have : r < m + 1 := by exact_mod_cast this
    omega
  have c2 : m ≤ r + 1 := by
    have : (m : ℚ) < r + 2 := by linarith
    have : m < r + 2 := by exact_mod_cast this
    omega
  rcases (show r = m ∨ r + 1 = m by omega) with h | h
  · subst h
    have hA : t < (r : ℚ) * r + r + 1 / 4 := by nlinarith
    rw [if_pos hA]
  · subst h
    push_cast at h1
    have hA : ¬ t < (r : ℚ) * r + r + 1 / 4 := by
      push_neg; nlinarith
    have hB : (r : ℚ) * r + r + 1 / 4 < t := by nlinarith
    rw [if_neg hA, if_pos hB]

theorem ilog2_half {q : ℚ} {k : ℤ} (h1 : (2 : ℚ) ^ (2 * k) ≤ q) (h2 : q < 2 ^ (2 * k + 2)) :
    Int.log 2 q / 2 = k := by
  have hq : 0 < q := lt_of_lt_of_le (two_zpow_pos _) h1
  have ha : 2 * k ≤ Int.log 2 q := by
    rw [← Int.zpow_le_iff_le_log (by norm_num) hq]; simpa using h1
  have hb : Int.log 2 q < 2 * k + 2 := by
    rw [← Int.lt_zpow_iff_log_lt (by norm_num) hq]; simpa using h2
  omega

theorem sqrtRN_eq_of {q : ℚ} {k : ℤ} {m : ℕ} (h1 : (2 : ℚ) ^ (2 * k) ≤ q)
    (h2 : q < 2 ^ (2 * k + 2)) (hm : 1 ≤ m)
    (h3 : ((m : ℚ) - 1 / 2) ^ 2 < q / (2 ^ (k - 52) * 2 ^ (k - 52)))
    (h4 : q / (2 ^ (k - 52) * 2 ^ (k - 52)) < ((m : ℚ) + 1 / 2) ^ 2) :
    sqrtRN q = m * 2 ^ (k - 52) := by
  have hq : 0 < q := lt_of_lt_of_le (two_zpow_pos _) h1
  unfold sqrtRN
  rw [if_neg (not_le.mpr hq)]
  simp only
  rw [ilog2_half h1 h2, roundSqrt_eq_of hm h3 h4]

/-- Shape of the rounded square root: `sqrtRN q = m * s` with the exact root bracketed
between `c * s` and `(m + 1/2) * s`, where `m - 1/2 ≤ c`, and with `2 ^ 52 * s` below the
root. -/
theorem sqrtRN_struct {q : ℚ} (hq : 0 < q) :
    ∃ (m : ℕ) (s c : ℚ), 0 < s ∧ 0 ≤ c ∧ (m : ℚ) - 1 / 2 ≤ c ∧ sqrtRN q = m * s ∧
      (c * s) ^ 2 ≤ q ∧ q ≤ ((m + 1 / 2) * s) ^ 2 ∧ (2 ^ (52 : ℕ) * s) ^ 2 ≤ q := by
  have hs0 : (0 : ℚ) < 2 ^ (Int.log 2 q / 2 - 52) := two_zpow_pos _
  have ht0 : 0 ≤ q / (2 ^ (Int.log 2 q / 2 - 52) * 2 ^ (Int.log 2 q / 2 - 52)) := by
    positivity
  obtain ⟨c, hc0, hc1, hc2, hc3⟩ := roundSqrt_struct ht0
  have hpow : ((2 : ℚ) ^ (52 : ℕ) * 2 ^ (Int.log 2 q / 2 - 52)) ^ 2 ≤ q := by
    have e1 : (2 : ℚ) ^ (52 : ℕ) * 2 ^ (Int.log 2 q / 2 - 52) = 2 ^ (Int.log 2 q / 2) := by
      rw [zpow_split (Int.log 2 q / 2) 52]; norm_cast
    rw [e1, sq, ← zpow_add₀ (by norm_num : (2 : ℚ) ≠ 0)]
    exact le_trans (two_zpow_mono (by omega)) (ilog2_le hq)
  refine ⟨roundSqrt (q / (2 ^ (Int.log 2 q / 2 - 52) * 2 ^ (Int.log 2 q / 2 - 52))),
    2 ^ (Int.log 2 q / 2 - 52), c, hs0, hc0, hc1, ?_, ?_, ?_, hpow⟩
  · unfold sqrtRN
    rw [if_neg (not_le.mpr hq)]
  · have := mul_le_mul_of_nonneg_right hc2 (mul_pos hs0 hs0).le
    rw [div_mul_cancel₀ _ (mul_pos hs0 hs0).ne'] at this
    calc (c * 2 ^ (Int.log 2 q / 2 - 52)) ^ 2 =
          c ^ 2 * (2 ^ (Int.log 2 q / 2 - 52) * 2 ^ (Int.log 2 q / 2 - 52)) := by ring
      _ ≤ q := this
  · have := mul_le_mul_of_nonneg_right hc3 (mul_pos hs0 hs0).le
    rw [div_mul_cancel₀ _ (mul_pos hs0 hs0).ne'] at this
    calc q ≤ _ := this
      _ = _ := by ring

/-! ## Finite results -/

/-- An exact value of absolute value at most `2 ^ n`, `n ≤ 1023`, rounds to a finite
number. -/
theorem round_of_abs_le {q : ℚ} {n : ℤ} (hn : -1074 ≤ n) (hn1 : n ≤ 1023)
    (h : |q| ≤ 2 ^ n) : double.round q = double.fin (rnd64 q) := by
  have hlt : (2 : ℚ) ^ n < 2 ^ (1024 : ℕ) := by
    have : (2 : ℚ) ^ (1024 : ℕ) = 2 ^ ((1024 : ℕ) : ℤ) := (zpow_natCast 2 1024).symm
    rw [this]
    exact zpow_lt_zpow_right₀ (by norm_num) (by push_cast; omega)
  obtain ⟨h1, h2⟩ := abs_le.mp h
  have a1 : rnd64 q ≤ 2 ^ n := rnd64_le_of_le (rnd64_zpow hn) h2
  have a2 : -(2 : ℚ) ^ n ≤ rnd64 q := by
    have := rnd64_le_of_le (rnd64_zpow hn) (by linarith : -q ≤ 2 ^ n)
    rw [rnd64_neg] at this
    linarith
  exact round_of_lt (by linarith) (by linarith)

/-! ## Error bounds over the reals -/

theorem rnd64_real_bounds {q : ℚ} (hq : (2 : ℚ) ^ (-1022 : ℤ) ≤ q) :
    (q : ℝ) * (1 - 1 / 2 ^ (53 : ℕ)) ≤ ((rnd64 q : ℚ) : ℝ) ∧
      ((rnd64 q : ℚ) : ℝ) ≤ (q : ℝ) * (1 + 1 / 2 ^ (53 : ℕ)) := by
  have h := rnd64_rel_err hq
  rw [abs_le] at h
  have h1 : q * (1 - 1 / 2 ^ (53 : ℕ)) ≤ rnd64 q := by
    have := h.1
    have e : q * (1 - 1 / 2 ^ (53 : ℕ)) = q - q / 2 ^ (53 : ℕ) := by ring
    linarith
  have h2 : rnd64 q ≤ q * (1 + 1 / 2 ^ (53 : ℕ)) := by
    have := h.2
    have e : q * (1 + 1 / 2 ^ (53 : ℕ)) = q + q / 2 ^ (53 : ℕ) := by ring
    linarith
  constructor
  · have := (Rat.cast_le (K := ℝ)).mpr h1
    push_cast at this
    exact this
  · have := (Rat.cast_le (K := ℝ)).mpr h2
    push_cast at this
    exact this

theorem sqrtRN_real_bounds {q : ℚ} (hq : 0 < q) :
    √(q : ℝ) * (1 - 1 / 2 ^ (53 : ℕ)) ≤ ((sqrtRN q : ℚ) : ℝ) ∧
      ((sqrtRN q : ℚ) : ℝ) ≤ √(q : ℝ) * (1 + 1 / 2 ^ (53 : ℕ)) := by
  obtain ⟨m, s, c, hs, hc0, hmc, e, hlo, hhi, hpow⟩ := sqrtRN_struct hq
  have hsR : (0 : ℝ) < (s : ℝ) := by exact_mod_cast hs
  have hcR : (0 : ℝ) ≤ (c : ℝ) := by exact_mod_cast hc0
  have hmcR : (m : ℝ) - 1 / 2 ≤ (c : ℝ) := by
    have := (Rat.cast_le (K := ℝ)).mpr hmc
    push_cast at this
    exact this
  have hloR : ((c : ℝ) * s) ^ 2 ≤ (q : ℝ) := by
    have := (Rat.cast_le (K := ℝ)).mpr hlo
    push_cast at this
    exact this
  have hhiR : (q : ℝ) ≤ (((m : ℝ) + 1 / 2) * s) ^ 2 := by
    have := (Rat.cast_le (K := ℝ)).mpr hhi
    push_cast at this
    exact this
  have hpowR : ((2 : ℝ) ^ (52 : ℕ) * s) ^ 2 ≤ (q : ℝ) := by
    have := (Rat.cast_le (K := ℝ)).mpr hpow
    push_cast at this
    exact this
  have b1 : (c : ℝ) * s ≤ √(q : ℝ) := Real.le_sqrt_of_sq_le hloR
  have b2 : √(q : ℝ) ≤ ((m : ℝ) + 1 / 2) * s :=
    (Real.sqrt_le_left (by positivity)).mpr hhiR
  have b3 : (2 : ℝ) ^ (52 : ℕ) * s ≤ √(q : ℝ) := Real.le_sqrt_of_sq_le hpowR
  have eR : ((sqrtRN q : ℚ) : ℝ) = (m : ℝ) * s := by rw [e]; push_cast; ring
  rw [eR]
  have k1 : (m : ℝ) * s - s / 2 ≤ (c : ℝ) * s := by nlinarith
  have k2 : s / 2 ≤ √(q : ℝ) * (1 / 2 ^ (53 : ℕ)) := by
    have : (2 : ℝ) ^ (53 : ℕ) = 2 * 2 ^ (52 : ℕ) := by norm_num
    rw [this]
    have h52 : (0 : ℝ) < 2 ^ (52 : ℕ) := by positivity
    rw [mul_one_div, le_div_iff₀ (by positivity)]
    nlinarith
  constructor
  · nlinarith
  · nlinarith

/-- The constants of the error bound: four roundings, one of them under a square root. -/
theorem err_consts :
    (1 - 1 / 2 ^ (51 : ℕ) : ℝ) ≤ (1 - 1 / 2 ^ (53 : ℕ)) ^ 4 ∧
      ((1 + 1 / 2 ^ (53 : ℕ)) ^ 3 * (1 + 1 / 2 ^ (54 : ℕ)) : ℝ) ≤ 1 + 1 / 2 ^ (51 : ℕ) := by
  constructor <;> norm_num

/-- The value `sqrt(3.0) * sqrt(fl(A))` of the bound of a uniform initialiser, for an exact
quotient `A` in `[2^-64, 2]`: every intermediate result is a finite number of the normal
range, and the result is within the relative error `2^-51` of `√(3 A)`. -/
theorem limit_facts {A : ℚ} (hA1 : (2 : ℚ) ^ (-64 : ℤ) ≤ A) (hA2 : A ≤ 2) :
    0 < rnd64 A ∧ rnd64 A ≤ 2 ∧
      0 < rnd64 (sqrtRN 3 * sqrtRN (rnd64 A)) ∧
      rnd64 (sqrtRN 3 * sqrtRN (rnd64 A)) ≤ 2 ^ (3 : ℤ) ∧
      |((rnd64 (sqrtRN 3 * sqrtRN (rnd64 A)) : ℚ) : ℝ) - √(3 * (A : ℝ))| ≤
        √(3 * (A : ℝ)) / 2 ^ (51 : ℕ) := by
  have hA : 0 < A := lt_of_lt_of_le (two_zpow_pos _) hA1
  have hAn : (2 : ℚ) ^ (-1022 : ℤ) ≤ A := le_trans (two_zpow_mono (by norm_num)) hA1
  have hylo : (2 : ℚ) ^ (-64 : ℤ) ≤ rnd64 A :=
    le_rnd64_of_le (rnd64_zpow (by norm_num)) hA1
  have hy : 0 < rnd64 A := lt_of_lt_of_le (two_zpow_pos _) hylo
  have hyhi : rnd64 A ≤ 2 := by
    have := rnd64_le_of_le (rnd64_zpow (n := 1) (by norm_num)) (by simpa using hA2)
    simpa using this
  obtain ⟨y1, y2⟩ := rnd64_real_bounds hAn
  obtain ⟨s1, s2⟩ := sqrtRN_real_bounds hy
  obtain ⟨c1, c2⟩ := sqrtRN_real_bounds (q := 3) (by norm_num)
  have hAR : (0 : ℝ) < (A : ℝ) := by exact_mod_cast hA
  have h3 : (0 : ℝ) < √3 := Real.sqrt_pos.mpr (by norm_num)
  have h3lo : (1 : ℝ) ≤ √3 := Real.le_sqrt_of_sq_le (by norm_num)
  have h3hi : √3 ≤ (2 : ℝ) := by
    rw [Real.sqrt_le_left (by norm_num)]; norm_num
  have hyR : (0 : ℝ) < ((rnd64 A : ℚ) : ℝ) := by exact_mod_cast hy
  have hsy : (0 : ℝ) < √((rnd64 A : ℚ) : ℝ) := Real.sqrt_pos.mpr hyR
  have hsylo : (1 / 2 ^ (32 : ℕ) : ℝ) ≤ √((rnd64 A : ℚ) : ℝ) := by
    apply Real.le_sqrt_of_sq_le
    have h64 : (((2 : ℚ) ^ (-64 : ℤ) : ℚ) : ℝ) ≤ ((rnd64 A : ℚ) : ℝ) := by
      exact_mod_cast hylo
    have : ((1 / 2 ^ (32 : ℕ) : ℝ)) ^ 2 = (((2 : ℚ) ^ (-64 : ℤ) : ℚ) : ℝ) := by
      push_cast; norm_num
    rw [this]
    exact h64
  have hsyhi : √((rnd64 A : ℚ) : ℝ) ≤ 2 := by
    rw [Real.sqrt_le_left (by norm_num)]
    have : ((rnd64 A : ℚ) : ℝ) ≤ 2 := by exact_mod_cast hyhi
    linarith
  push_cast at c1 c2
  have hs3R : (1 / 2 : ℝ) ≤ ((sqrtRN 3 : ℚ) : ℝ) := by
    have : √3 * (1 / 2) ≤ √3 * (1 - 1 / 2 ^ (53 : ℕ)) :=
      mul_le_mul_of_nonneg_left (by norm_num) h3.le
    linarith
  have hs3hi : ((sqrtRN 3 : ℚ) : ℝ) ≤ 4 := by
    have : √3 * (1 + 1 / 2 ^ (53 : ℕ)) ≤ 2 * 2 :=
      mul_le_mul h3hi (by norm_num) (by norm_num) (by norm_num)
    linarith
  have hsyR : (1 / 2 ^ (33 : ℕ) : ℝ) ≤ ((sqrtRN (rnd64 A) : ℚ) : ℝ) := by
    have : (1 / 2 ^ (32 : ℕ) : ℝ) * (1 / 2) ≤
        √((rnd64 A : ℚ) : ℝ) * (1 - 1 / 2 ^ (53 : ℕ)) :=
      mul_le_mul hsylo (by norm_num) (by norm_num) hsy.le
    have e : (1 / 2 ^ (32 : ℕ) : ℝ) * (1 / 2) = 1 / 2 ^ (33 : ℕ) := by norm_num
    rw [e] at this
    exact le_trans this s1
  have hsyRhi : ((sqrtRN (rnd64 A) : ℚ) : ℝ) ≤ 2 := by
    have h2a : √((rnd64 A : ℚ) : ℝ) ≤ (3 / 2 : ℝ) := by
      rw [Real.sqrt_le_left (by norm_num)]
      have : ((rnd64 A : ℚ) : ℝ) ≤ 2 := by exact_mod_cast hyhi
      have e : ((3 : ℝ) / 2) ^ 2 = 9 / 4 := by norm_num
      rw [e]
      linarith
    have h2b : √((rnd64 A : ℚ) : ℝ) * (1 + 1 / 2 ^ (53 : ℕ)) ≤
        3 / 2 * (1 + 1 / 2 ^ (53 : ℕ)) :=
      mul_le_mul_of_nonneg_right h2a (by norm_num)
    have h2c : (3 / 2 : ℝ) * (1 + 1 / 2 ^ (53 : ℕ)) ≤ 2 := by norm_num
    exact le_trans s2 (le_trans h2b h2c)
  have hs3pos : (0 : ℝ) < ((sqrtRN 3 : ℚ) : ℝ) := by linarith
  have hsypos : (0 : ℝ) < ((sqrtRN (rnd64 A) : ℚ) : ℝ) :=
    lt_of_lt_of_le (by positivity) hsyR
  -- the product is in the normal range and small
  have hPloR : (1 / 2 ^ (34 : ℕ) : ℝ) ≤
      ((sqrtRN 3 : ℚ) : ℝ) * ((sqrtRN (rnd64 A) : ℚ) : ℝ) := by
    have : (1 / 2 : ℝ) * (1 / 2 ^ (33 : ℕ)) ≤
        ((sqrtRN 3 : ℚ) : ℝ) * ((sqrtRN (rnd64 A) : ℚ) : ℝ) :=
      mul_le_mul hs3R hsyR (by positivity) hs3pos.le
    have e : (1 / 2 : ℝ) * (1 / 2 ^ (33 : ℕ)) = 1 / 2 ^ (34 : ℕ) := by norm_num
    rw [e] at this
    exact this
  have hPhiR : ((sqrtRN 3 : ℚ) : ℝ) * ((sqrtRN (rnd64 A) : ℚ) : ℝ) ≤ 8 := by
    have : ((sqrtRN 3 : ℚ) : ℝ) * ((sqrtRN (rnd64 A) : ℚ) : ℝ) ≤ 4 * 2 :=
      mul_le_mul hs3hi hsyRhi hsypos.le (by norm_num)
    linarith
  have hPlo : (2 : ℚ) ^ (-34 : ℤ) ≤ sqrtRN 3 * sqrtRN (rnd64 A) := by
    have h : ((1 / 2 ^ (34 : ℕ) : ℚ) : ℝ) ≤ ((sqrtRN 3 * sqrtRN (rnd64 A) : ℚ) : ℝ) := by
      push_cast; exact hPloR
    have h1 : (1 / 2 ^ (34 : ℕ) : ℚ) ≤ sqrtRN 3 * sqrtRN (rnd64 A) := by exact_mod_cast h
    have e : (2 : ℚ) ^ (-34 : ℤ) = 1 / 2 ^ (34 : ℕ) := by norm_num
    rw [e]
    exact h1
  have hPhi : sqrtRN 3 * sqrtRN (rnd64 A) ≤ 2 ^ (3 : ℤ) := by
    have h : ((sqrtRN 3 * sqrtRN (rnd64 A) : ℚ) : ℝ) ≤ ((8 : ℚ) : ℝ) := by
      push_cast; exact hPhiR
    have h1 : sqrtRN 3 * sqrtRN (rnd64 A) ≤ 8 := by exact_mod_cast h
    have e : (2 : ℚ) ^ (3 : ℤ) = 8 := by norm_num
    rw [e]
    exact h1
  have hPn : (2 : ℚ) ^ (-1022 : ℤ) ≤ sqrtRN 3 * sqrtRN (rnd64 A) :=
    le_trans (two_zpow_mono (by norm_num)) hPlo
  have hrlo : (2 : ℚ) ^ (-34 : ℤ) ≤ rnd64 (sqrtRN 3 * sqrtRN (rnd64 A)) :=
    le_rnd64_of_le (rnd64_zpow (by norm_num)) hPlo
  have hrhi : rnd64 (sqrtRN 3 * sqrtRN (rnd64 A)) ≤ 2 ^ (3 : ℤ) :=
    rnd64_le_of_le (rnd64_zpow (by norm_num)) hPhi
  refine ⟨hy, hyhi, lt_of_lt_of_le (two_zpow_pos _) hrlo, hrhi, ?_⟩
  obtain ⟨p1, p2⟩ := rnd64_real_bounds hPn
  push_cast at p1 p2
  -- the root of the rounded argument
  have r1 : √(A : ℝ) * (1 - 1 / 2 ^ (53 : ℕ)) ≤ √((rnd64 A : ℚ) : ℝ) := by
    apply Real.le_sqrt_of_sq_le
    have : (√(A : ℝ) * (1 - 1 / 2 ^ (53 : ℕ))) ^ 2 =
        (A : ℝ) * (1 - 1 / 2 ^ (53 : ℕ)) ^ 2 := by
      rw [mul_pow, Real.sq_sqrt hAR.le]
    rw [this]
    have : ((1 : ℝ) - 1 / 2 ^ (53 : ℕ)) ^ 2 ≤ 1 - 1 / 2 ^ (53 : ℕ) := by norm_num
    nlinarith
  have r2 : √((rnd64 A : ℚ) : ℝ) ≤ √(A : ℝ) * (1 + 1 / 2 ^ (54 : ℕ)) := by
    rw [Real.sqrt_le_left (by positivity)]
    have : (√(A : ℝ) * (1 + 1 / 2 ^ (54 : ℕ))) ^ 2 =
        (A : ℝ) * (1 + 1 / 2 ^ (54 : ℕ)) ^ 2 := by
      rw [mul_pow, Real.sq_sqrt hAR.le]
    rw [this]
    have : (1 : ℝ) + 1 / 2 ^ (53 : ℕ) ≤ (1 + 1 / 2 ^ (54 : ℕ)) ^ 2 := by norm_num
    nlinarith
  have e3 : √(3 * (A : ℝ)) = √3 * √(A : ℝ) := Real.sqrt_mul (by norm_num) _
  have hA1R : (0 : ℝ) < √(A : ℝ) := Real.sqrt_pos.mpr hAR
  have hX : (0 : ℝ) < √3 * √(A : ℝ) := mul_pos h3 hA1R
  obtain ⟨k1, k2⟩ := err_consts
  have u1 : ((sqrtRN (rnd64 A) : ℚ) : ℝ) ≤
      √(A : ℝ) * ((1 + 1 / 2 ^ (54 : ℕ)) * (1 + 1 / 2 ^ (53 : ℕ))) := by
    calc ((sqrtRN (rnd64 A) : ℚ) : ℝ) ≤ √((rnd64 A : ℚ) : ℝ) * (1 + 1 / 2 ^ (53 : ℕ)) := s2
      _ ≤ √(A : ℝ) * (1 + 1 / 2 ^ (54 : ℕ)) * (1 + 1 / 2 ^ (53 : ℕ)) :=
          mul_le_mul_of_nonneg_right r2 (by norm_num)
      _ = _ := by ring
  have u2 : ((sqrtRN 3 : ℚ) : ℝ) * ((sqrtRN (rnd64 A) : ℚ) : ℝ) ≤
      (√3 * (1 + 1 / 2 ^ (53 : ℕ))) *
        (√(A : ℝ) * ((1 + 1 / 2 ^ (54 : ℕ)) * (1 + 1 / 2 ^ (53 : ℕ)))) :=
    mul_le_mul c2 u1 hsypos.le (by positivity)
  have l1 : √(A : ℝ) * ((1 - 1 / 2 ^ (53 : ℕ)) * (1 - 1 / 2 ^ (53 : ℕ))) ≤
      ((sqrtRN (rnd64 A) : ℚ) : ℝ) := by
    calc √(A : ℝ) * ((1 - 1 / 2 ^ (53 : ℕ)) * (1 - 1 / 2 ^ (53 : ℕ)))
        = √(A : ℝ) * (1 - 1 / 2 ^ (53 : ℕ)) * (1 - 1 / 2 ^ (53 : ℕ)) := by ring
      _ ≤ √((rnd64 A : ℚ) : ℝ) * (1 - 1 / 2 ^ (53 : ℕ)) :=
          mul_le_mul_of_nonneg_right r1 (by norm_num)
      _ ≤ _ := s1
  have l2 : (√3 * (1 - 1 / 2 ^ (53 : ℕ))) *
        (√(A : ℝ) * ((1 - 1 / 2 ^ (53 : ℕ)) * (1 - 1 / 2 ^ (53 : ℕ)))) ≤
      ((sqrtRN 3 : ℚ) : ℝ) * ((sqrtRN (rnd64 A) : ℚ) : ℝ) :=
    mul_le_mul c1 l1 (by positivity) hs3pos.le
  have U : ((rnd64 (sqrtRN 3 * sqrtRN (rnd64 A)) : ℚ) : ℝ) ≤
      (√3 * √(A : ℝ)) * (1 + 1 / 2 ^ (51 : ℕ)) := by
    calc ((rnd64 (sqrtRN 3 * sqrtRN (rnd64 A)) : ℚ) : ℝ)
        ≤ ((sqrtRN 3 : ℚ) : ℝ) * ((sqrtRN (rnd64 A) : ℚ) : ℝ) * (1 + 1 / 2 ^ (53 : ℕ)) := p2
      _ ≤ (√3 * (1 + 1 / 2 ^ (53 : ℕ))) *
            (√(A : ℝ) * ((1 + 1 / 2 ^ (54 : ℕ)) * (1 + 1 / 2 ^ (53 : ℕ)))) *
            (1 + 1 / 2 ^ (53 : ℕ)) := mul_le_mul_of_nonneg_right u2 (by norm_num)
      _ = (√3 * √(A : ℝ)) * ((1 + 1 / 2 ^ (53 : ℕ)) ^ 3 * (1 + 1 / 2 ^ (54 : ℕ))) := by ring
      _ ≤ (√3 * √(A : ℝ)) * (1 + 1 / 2 ^ (51 : ℕ)) := mul_le_mul_of_nonneg_left k2 hX.le
  have L : (√3 * √(A : ℝ)) * (1 - 1 / 2 ^ (51 : ℕ)) ≤
      ((rnd64 (sqrtRN 3 * sqrtRN (rnd64 A)) : ℚ) : ℝ) := by
    calc (√3 * √(A : ℝ)) * (1 - 1 / 2 ^ (51 : ℕ))
        ≤ (√3 * √(A : ℝ)) * (1 - 1 / 2 ^ (53 : ℕ)) ^ 4 := mul_le_mul_of_nonneg_left k1 hX.le
      _ = (√3 * (1 - 1 / 2 ^ (53 : ℕ))) *
            (√(A : ℝ) * ((1 - 1 / 2 ^ (53 : ℕ)) * (1 - 1 / 2 ^ (53 : ℕ)))) *
            (1 - 1 / 2 ^ (53 : ℕ)) := by ring
      _ ≤ ((sqrtRN 3 : ℚ) : ℝ) * ((sqrtRN (rnd64 A) : ℚ) : ℝ) * (1 - 1 / 2 ^ (53 : ℕ)) :=
          mul_le_mul_of_nonneg_right l2 (by norm_num)
      _ ≤ _ := p1
  rw [e3, abs_le]
  constructor
  · have : (√3 * √(A : ℝ)) * (1 - 1 / 2 ^ (51 : ℕ)) =
        √3 * √(A : ℝ) - √3 * √(A : ℝ) / 2 ^ (51 : ℕ) := by ring
    linarith
  · have : (√3 * √(A : ℝ)) * (1 + 1 / 2 ^ (51 : ℕ)) =
        √3 * √(A : ℝ) + √3 * √(A : ℝ) / 2 ^ (51 : ℕ) := by ring
    linarith

/-! ## Values of the arithmetic on concrete inputs -/

theorem round_eq_of {q v : ℚ} (h : rnd64 q = v) (hq : |q| ≤ 2 ^ (10 : ℤ)) :
    double.round q = double.fin v := by
  rw [round_of_abs_le (n := 10) (by norm_num) (by norm_num) hq, h]

theorem rnd64_one : rnd64 1 = 1 := by
  have h := rnd64_zpow (n := 0) (by norm_num)
  simpa using h

theorem rnd64_two : rnd64 2 = 2 := by
  have h := rnd64_zpow (n := 1) (by norm_num)
  simpa using h

theorem rnd64_below_one : rnd64 (1 - 1 / 2 ^ (53 : ℕ)) = 1 - 1 / 2 ^ (53 : ℕ) := by
  rw [rnd64_eq_of_pos (e := -1) (m := 2 ^ (53 : ℕ) - 1) (by norm_num) (by norm_num)
    (by norm_num) (by rw [abs_lt]; constructor <;> norm_num)]
  norm_num

theorem rnd64_three : rnd64 3 = 3 := by
  rw [rnd64_eq_of_pos (e := 1) (m := 3 * 2 ^ (51 : ℕ)) (by norm_num) (by norm_num)
    (by norm_num) (by rw [abs_lt]; constructor <;> norm_num)]
  norm_num

theorem rnd64_six : rnd64 6 = 6 := by
  rw [rnd64_eq_of_pos (e := 2) (m := 3 * 2 ^ (51 : ℕ)) (by norm_num) (by norm_num)
    (by norm_num) (by rw [abs_lt]; constructor <;> norm_num)]
  norm_num

theorem rnd64_below_four : rnd64 (1 - 1 / 2 ^ (53 : ℕ) + 3) = 4 := by
  rw [rnd64_eq_of_pos (e := 1) (m := 2 ^ (53 : ℕ)) (by norm_num) (by norm_num)
    (by norm_num) (by rw [abs_lt]; constructor <;> norm_num)]
  norm_num

theorem rnd64_third : rnd64 (1 / 3) = 6004799503160661 / 18014398509481984 := by
  rw [rnd64_eq_of_pos (e := -2) (m := 6004799503160661) (by norm_num) (by norm_num)
    (by norm_num) (by rw [abs_lt]; constructor <;> norm_num)]
  norm_num

theorem sqrtRN_three : sqrtRN 3 = 7800463371553962 / 4503599627370496 := by
  rw [sqrtRN_eq_of (k := 0) (m := 7800463371553962) (by norm_num) (by norm_num) (by norm_num)
    (by norm_num) (by norm_num)]
  norm_num

theorem sqrtRN_one : sqrtRN 1 = 1 := by
  rw [sqrtRN_eq_of (k := 0) (m := 2 ^ (52 : ℕ)) (by norm_num) (by norm_num) (by norm_num)
    (by norm_num) (by norm_num)]
  norm_num

theorem sqrtRN_two : sqrtRN 2 = 6369051672525773 / 4503599627370496 := by
  rw [sqrtRN_eq_of (k := 0) (m := 6369051672525773) (by norm_num) (by norm_num) (by norm_num)
    (by norm_num) (by norm_num)]
  norm_num

theorem sqrtRN_six : sqrtRN 6 = 2757880273211543 / 1125899906842624 := by
  rw [sqrtRN_eq_of (k := 1) (m := 5515760546423086) (by norm_num) (by norm_num) (by norm_num)
    (by norm_num) (by norm_num)]
  norm_num

theorem sqrtRN_rnd_third :
    sqrtRN (6004799503160661 / 18014398509481984) = 5200308914369308 / 9007199254740992 := by
  rw [sqrtRN_eq_of (k := -1) (m := 5200308914369308) (by norm_num) (by norm_num) (by norm_num)
    (by norm_num) (by norm_num)]
  norm_num

theorem kaimingLimit_three_val :
    rnd64 (7800463371553962 / 4503599627370496 * (5200308914369308 / 9007199254740992)) =
      1 - 1 / 2 ^ (53 : ℕ) := by
  rw [rnd64_eq_of_pos (e := -1) (m := 9007199254740991) (by norm_num) (by norm_num)
    (by norm_num) (by rw [abs_lt]; constructor <;> norm_num)]
  norm_num

theorem glorotLimit_one_val :
    rnd64 (7800463371553962 / 4503599627370496 * (6369051672525773 / 4503599627370496)) =
      5515760546423087 / 2251799813685248 := by
  rw [rnd64_eq_of_pos (e := 1) (m := 5515760546423087) (by norm_num) (by norm_num)
    (by norm_num) (by rw [abs_lt]; constructor <;> norm_num)]
  norm_num

theorem sqrtRN_three_pos : 0 < sqrtRN 3 := by
  rw [sqrtRN_three]; norm_num

theorem dblMax_lt : dblMax < 2 ^ 1024 := by
  unfold dblMax; norm_num

theorem dblMax_pos : 0 < dblMax := by
  unfold dblMax; norm_num

theorem isDbl_dblMax : isDbl dblMax :=
  ⟨rnd64_dblMax, by rw [abs_of_pos dblMax_pos]; exact dblMax_lt⟩

/-- The sum `DBL_MAX + DBL_MAX` overflows. -/
theorem round_two_dblMax : double.round (dblMax + - -dblMax) = double.pinf := by
  have h0 : 0 < dblMax + - -dblMax := by have := dblMax_pos; linarith
  have h : binary64.rnd (dblMax + - -dblMax) = dblMax + - -dblMax := by
    apply rnd_of_mul binary64 binary64_valid.1 (m := 2 ^ (53 : ℕ) - 1) (g := 972) _
      (by decide) h0
    · show dblMax + - -dblMax ≤ 2 ^ ((972 : ℤ) + 53)
      unfold dblMax; norm_num
    · unfold dblMax; norm_num
  unfold double.round FpFormat.round
  rw [h, if_pos]
  rw [emax64]
  unfold dblMax
  norm_num

/-! ## Unfolding the operations on finite values -/

theorem double_sqrt_fin {q : ℚ} (h : 0 ≤ q) :
    double.sqrt (double.fin q) = double.fin (sqrtRN q) := by
  simp [double.sqrt, not_lt.mpr h]

theorem double_sqrt_fin_neg {q : ℚ} (h : q < 0) : double.sqrt (double.fin q) = double.nan := by
  simp [double.sqrt, h]

theorem double_div_fin {a b : ℚ} (hb : b ≠ 0) :
    double.div (double.fin a) (double.fin b) = double.round (a / b) := by
  simp [double.div, hb]

theorem double_mul_fin (a b : ℚ) :
    double.mul (double.fin a) (double.fin b) = double.round (a * b) := rfl

theorem double_sub_fin (a b : ℚ) :
    double.sub (double.fin a) (double.fin b) = double.round (a + -b) := rfl

/-- The bound `sqrt(3.0) * sqrt(c / n)` for `c` in `[1, 2]` and a positive `int` `n`:
every operation returns a finite value. -/
theorem limit_eval {c : ℚ} {n : ℤ} (hc1 : 1 ≤ c) (hc2 : c ≤ 2) (hn : 0 < n)
    (h31 : n < 2 ^ 31) :
    double.mul (double.sqrt (double.fin 3))
        (double.sqrt (double.div (double.fin c) (double.ofInt n))) =
      double.fin (rnd64 (sqrtRN 3 * sqrtRN (rnd64 (c / (n : ℚ))))) := by
  have hq : (0 : ℚ) < n := by exact_mod_cast hn
  have hq1 : (1 : ℚ) ≤ n := by exact_mod_cast hn
  have hq2 : (n : ℚ) ≤ 2 ^ (31 : ℕ) := by exact_mod_cast h31.le
  have hA1 : (2 : ℚ) ^ (-64 : ℤ) ≤ c / (n : ℚ) := by
    rw [le_div_iff₀ hq]
    have : (2 : ℚ) ^ (-64 : ℤ) * 2 ^ (31 : ℕ) ≤ 1 := by norm_num
    have h0 : (0 : ℚ) ≤ 2 ^ (-64 : ℤ) := (two_zpow_pos _).le
    nlinarith
  have hA2 : c / (n : ℚ) ≤ 2 := by
    rw [div_le_iff₀ hq]; nlinarith
  obtain ⟨f1, f2, f3, f4, _⟩ := limit_facts hA1 hA2
  have r1 : double.round (c / (n : ℚ)) = double.fin (rnd64 (c / (n : ℚ))) :=
    round_of_lt (by linarith [show (0 : ℚ) < 2 ^ 1024 by positivity])
      (by linarith [show (2 : ℚ) < 2 ^ 1024 by norm_num])
  have r2 : double.round (sqrtRN 3 * sqrtRN (rnd64 (c / (n : ℚ)))) =
      double.fin (rnd64 (sqrtRN 3 * sqrtRN (rnd64 (c / (n : ℚ))))) :=
    round_of_lt (by linarith [show (0 : ℚ) < 2 ^ 1024 by positivity])
      (by
        have : (2 : ℚ) ^ (3 : ℤ) < 2 ^ 1024 := by norm_num
        linarith)
  unfold double.ofInt
  rw [double_div_fin hq.ne', r1, double_sqrt_fin f1.le, double_sqrt_fin (by norm_num),
    double_mul_fin, r2]

theorem kaimingLimit_of_pos {n : ℤ} (hn : 0 < n) (h31 : n < 2 ^ 31) :
    af.kaimingLimit n = double.fin (rnd64 (sqrtRN 3 * sqrtRN (rnd64 (1 / (n : ℚ))))) :=
  limit_eval (le_refl _) (by norm_num) hn h31

theorem int_add_range (a b : ℤ) : -2 ^ 31 ≤ int.add a b ∧ int.add a b < 2 ^ 31 := by
  unfold int.add
  omega

theorem glorotLimit_of_pos {a b : ℤ} (hn : 0 < int.add a b) :
    af.glorotLimit a b =
      double.fin (rnd64 (sqrtRN 3 * sqrtRN (rnd64 (2 / (int.add a b : ℚ))))) :=
  limit_eval (by norm_num) (le_refl _) hn (int_add_range a b).2

/-- A negative quotient `c / n` with `c` in `{1, 2}` and `n` a negative `int` rounds to a
negative number, so its square root is `NaN`, and so is the bound. -/
theorem sqrt_div_neg {c : ℚ} {n : ℤ} (hc1 : 1 ≤ c) (hc2 : c ≤ 2) (hn : n < 0)
    (h31 : -2 ^ 31 ≤ n) :
    double.sqrt (double.div (double.fin c) (double.ofInt n)) = double.nan := by
  have hq : (n : ℚ) < 0 := by exact_mod_cast hn
  have hq1 : (n : ℚ) ≤ -1 := by exact_mod_cast (show n ≤ -1 by omega)
  have hq2 : -(2 : ℚ) ^ (31 : ℕ) ≤ n := by exact_mod_cast h31
  have hlo : -(2 : ℚ) ^ (1 : ℤ) ≤ c / (n : ℚ) := by
    rw [le_div_iff_of_neg hq]
    have : (2 : ℚ) ^ (1 : ℤ) = 2 := by norm_num
    rw [this]
    nlinarith
  have hhi : c / (n : ℚ) ≤ -(2 : ℚ) ^ (-31 : ℤ) := by
    rw [div_le_iff_of_neg hq]
    have h2 : (2 : ℚ) ^ (-31 : ℤ) * 2 ^ (31 : ℕ) = 1 := by norm_num
    have h0 : (0 : ℚ) < 2 ^ (-31 : ℤ) := two_zpow_pos _
    nlinarith
  have a1 : rnd64 (c / (n : ℚ)) ≤ -(2 : ℚ) ^ (-31 : ℤ) := by
    have := le_rnd64_of_le (rnd64_zpow (n := -31) (by norm_num))
      (by linarith : (2 : ℚ) ^ (-31 : ℤ) ≤ -(c / (n : ℚ)))
    rw [rnd64_neg] at this
    linarith
  have a2 : -(2 : ℚ) ^ (1 : ℤ) ≤ rnd64 (c / (n : ℚ)) := by
    have := rnd64_le_of_le (rnd64_zpow (n := 1) (by norm_num))
      (by linarith : -(c / (n : ℚ)) ≤ (2 : ℚ) ^ (1 : ℤ))
    rw [rnd64_neg] at this
    linarith
  have hneg : rnd64 (c / (n : ℚ)) < 0 := lt_of_le_of_lt a1 (neg_neg_of_pos (two_zpow_pos _))
  have r1 : double.round (c / (n : ℚ)) = double.fin (rnd64 (c / (n : ℚ))) :=
    round_of_lt
      (by
        have : -(2 : ℚ) ^ 1024 < -(2 : ℚ) ^ (1 : ℤ) := by norm_num
        linarith)
      (by linarith [show (0 : ℚ) < 2 ^ 1024 by positivity])
  unfold double.ofInt
  rw [double_div_fin hq.ne, r1, double_sqrt_fin_neg hneg]

theorem kaimingLimit_zero : af.kaimingLimit 0 = double.pinf := by
  have h := sqrtRN_three_pos
  unfold af.kaimingLimit double.ofInt
  simp only
  rw [double_sqrt_fin (by norm_num)]
  simp [double.div, double.sqrt, double.mul, FpFormat.mul, double.infTimes, h, h.ne']

theorem kaimingLimit_of_neg {n : ℤ} (hn : n < 0) (h31 : -2 ^ 31 ≤ n) :
    af.kaimingLimit n = double.nan := by
  unfold af.kaimingLimit
  simp only
  rw [sqrt_div_neg (le_refl _) (by norm_num) hn h31, double_sqrt_fin (by norm_num)]
  rfl

theorem glorotLimit_of_neg {a b : ℤ} (hn : int.add a b < 0) :
    af.glorotLimit a b = double.nan := by
  unfold af.glorotLimit
  simp only
  rw [sqrt_div_neg (by norm_num) (le_refl _) hn (int_add_range a b).1,
    double_sqrt_fin (by norm_num)]
  rfl

theorem int_add_of_range {a b : ℤ} (h1 : -2 ^ 31 ≤ a + b) (h2 : a + b < 2 ^ 31) :
    int.add a b = a + b := by
  unfold int.add
  omega

theorem int_add_comm (a b : ℤ) : int.add a b = int.add b a := by
  unfold int.add
  rw [add_comm a b]

theorem uniform_ok {ε : Type} (B : af.Backend ε) (shape : af.dim4) (mn mx : double)
    (ty : af.dtype) (draw : af.array) (h : B.randu shape ty = Except.ok draw) :
    af.uniform B shape mn mx ty =
      Except.ok ((draw.scale (double.sub mx mn)).plus mn) := by
  unfold af.uniform
  rw [h]
  rfl

theorem uniform_error {ε : Type} (B : af.Backend ε) (shape : af.dim4) (mn mx : double)
    (ty : af.dtype) (e : ε) (h : B.randu shape ty = Except.error e) :
    af.uniform B shape mn mx ty = Except.error e := by
  unfold af.uniform
  rw [h]
  rfl

/-- Every element of `(max - min) * draw + min` is `NaN` when both bounds are `NaN`. -/
theorem affine_nan (a : af.array) :
    (a.scale (double.sub double.nan (double.neg double.nan))).plus (double.neg double.nan) =
      { a with data := a.data.map (fun _ => double.nan) } := by
  simp only [af.array.scale, af.array.plus, List.map_map]
  congr 1
  apply List.map_congr_left
  intro x _
  cases x <;> rfl

/-- Every element of `(max - min) * draw + min` is `NaN` when the bounds are `-inf` and
`+inf` and the draw is finite and not negative. -/
theorem affine_inf (a : af.array) (h : ∀ x ∈ a.data, ∃ q : ℚ, x = double.fin q ∧ 0 ≤ q) :
    (a.scale (double.sub double.pinf (double.neg double.pinf))).plus
        (double.neg double.pinf) =
      { a with data := a.data.map (fun _ => double.nan) } := by
  simp only [af.array.scale, af.array.plus, List.map_map]
  congr 1
  apply List.map_congr_left
  intro x hx
  obtain ⟨q, rfl, hq⟩ := h x hx
  rcases hq.lt_or_eq with hlt | heq
  · simp [double.sub, double.neg, double.add, FpFormat.add, FpFormat.mul, FpFormat.cast,
      double.infTimes, hlt, hlt.ne']
  · subst heq
    simp [double.sub, double.neg, double.add, FpFormat.add, FpFormat.mul, FpFormat.cast,
      double.infTimes]

theorem emax32 : binary32.emax = 128 := rfl

theorem maxNum32 : binary32.maxNum = 2 ^ 128 - 2 ^ 104 := by
  unfold FpFormat.maxNum
  rw [emax32, show ((128 : ℕ) : ℤ) - binary32.prec = ((104 : ℕ) : ℤ) by decide, zpow_natCast]

theorem roundF_eq_of (F : FpFormat) {q v : ℚ} (h : F.rnd q = v) (hv : |v| < 2 ^ F.emax) :
    F.round q = double.fin v := by
  rw [abs_lt] at hv
  rw [roundF_of_lt F (by rw [h]; exact hv.1) (by rw [h]; exact hv.2), h]

theorem round32_eq_of {q v : ℚ} (h : binary32.rnd q = v) (hv : |v| ≤ 2 ^ (10 : ℕ)) :
    binary32.round q = double.fin v := by
  apply roundF_eq_of binary32 h
  rw [emax32]
  exact lt_of_le_of_lt hv (by norm_num)

/-- The element `(max - min) * x + min` of `af::uniform` on a tensor whose elements have the
format `F`: the difference is a `double`, it is converted to `F`, and the product and
the sum are rounded to `F`.  Every operation returns a finite value, and the element is
a number of the format in `[mn, mx]`. -/
theorem uniform_elem (F : FpFormat) (hF : F.valid) (hw : F.within binary64) {mn mx x : ℚ}
    (hmn : F.isNum mn) (hmx : F.isNum mx) (h : mn ≤ mx) (hfit : mx - mn ≤ F.maxNum)
    (hx : F.isNum x) (hx0 : 0 ≤ x) (hx1 : x < 1) :
    ∃ r : ℚ,
      F.add (F.mul (F.cast (double.sub (double.fin mx) (double.fin mn))) (double.fin x))
          (F.cast (double.fin mn)) = double.fin r ∧
        F.isNum r ∧ mn ≤ r ∧ r ≤ mx := by
  obtain ⟨b0, b1, b2, b3, b4, b5, b6, b7⟩ :=
    uniform_value_bounds F hF hw hmn.1 hmx.1 h (rnd_maxNum F hF)
      (by linarith : mx + -mn ≤ F.maxNum) hx.1 hx0 hx1
  have hmax := maxNum_lt F
  have hbig : (0 : ℚ) < 2 ^ F.emax := by positivity
  have h64 : (2 : ℚ) ^ F.emax ≤ 2 ^ 1024 :=
    pow_le_pow_right₀ (by norm_num) hw.2.2
  obtain ⟨m1, m2⟩ := abs_lt.mp hmn.2
  obtain ⟨m3, m4⟩ := abs_lt.mp hmx.2
  have r1 : double.round (mx + -mn) = double.fin (binary64.rnd (mx + -mn)) :=
    round_of_lt (lt_of_lt_of_le (by linarith) b0) (lt_of_le_of_lt b1 (lt_of_lt_of_le hmax h64))
  have r2 : F.round (binary64.rnd (mx + -mn)) =
      double.fin (F.rnd (binary64.rnd (mx + -mn))) :=
    roundF_of_lt F (by linarith) (by linarith)
  have r3 : F.round (F.rnd (binary64.rnd (mx + -mn)) * x) =
      double.fin (F.rnd (F.rnd (binary64.rnd (mx + -mn)) * x)) :=
    roundF_of_lt F (by linarith) (by linarith)
  have r4 : F.round mn = double.fin mn := round_of_isNum F hmn
  have r5 : F.round (F.rnd (F.rnd (binary64.rnd (mx + -mn)) * x) + mn) =
      double.fin (F.rnd (F.rnd (F.rnd (binary64.rnd (mx + -mn)) * x) + mn)) :=
    roundF_of_lt F (by linarith) (by linarith)
  refine ⟨F.rnd (F.rnd (F.rnd (binary64.rnd (mx + -mn)) * x) + mn), ?_,
    ⟨rnd_idem F hF.1 _, ?_⟩, b6, b7⟩
  · show F.add (F.mul (F.cast (double.round (mx + -mn))) (double.fin x))
        (F.cast (double.fin mn)) = _
    rw [r1]
    show F.add (F.mul (F.round (binary64.rnd (mx + -mn))) (double.fin x)) (F.round mn) = _
    rw [r2, r4]
    show F.add (F.round (F.rnd (binary64.rnd (mx + -mn)) * x)) (double.fin mn) = _
    rw [r3]
    exact r5
  · rw [abs_lt]
    constructor <;> linarith

theorem cast64_fin (q : ℚ) : binary64.cast (double.fin q) = double.round q := rfl

theorem mul64_fin (a b : ℚ) :
    binary64.mul (double.fin a) (double.fin b) = double.round (a * b) := rfl

theorem add64_fin (a b : ℚ) :
    binary64.add (double.fin a) (double.fin b) = double.round (a + b) := rfl

/-- The `double` nearest to `0.7`. -/
theorem rnd64_seven_tenths :
    rnd64 (3152519739159347 / 4503599627370496) = 3152519739159347 / 4503599627370496 := by
  rw [rnd64_eq_of_pos (e := -1) (m := 6305039478318694) (by norm_num) (by norm_num)
    (by norm_num) (by rw [abs_lt]; constructor <;> norm_num)]
  norm_num

theorem isNum64_neg_dblMax : binary64.isNum (-dblMax) := by
  have h := isNum_neg binary64 (isNum_maxNum binary64 binary64_valid)
  rwa [maxNum64] at h

/-- The difference `FLT_MAX - -FLT_MAX` is finite as a `double`. -/
theorem round_two_fltMax :
    double.round (binary32.maxNum + - -binary32.maxNum) = double.fin (2 ^ 129 - 2 ^ 105) := by
  have e : binary32.maxNum + - -binary32.maxNum = 2 ^ 129 - 2 ^ 105 := by
    rw [maxNum32]; norm_num
  rw [e]
  have h : binary64.rnd (2 ^ 129 - 2 ^ 105) = 2 ^ 129 - 2 ^ 105 := by
    apply rnd_of_mul binary64 binary64_valid.1 (m := 2 ^ (24 : ℕ) - 1) (g := 105) _
      (by decide) (by norm_num)
    · show (2 ^ 129 - 2 ^ 105 : ℚ) ≤ 2 ^ ((105 : ℤ) + 53)
      norm_num
    · norm_num
  have h2 := roundF_eq_of binary64 h (by rw [emax64, abs_lt]; constructor <;> norm_num)
  exact h2

/-- The `double` `2 * FLT_MAX` overflows when it is converted to binary32. -/
theorem round32_two_fltMax : binary32.round (2 ^ 129 - 2 ^ 105) = double.pinf := by
  have h : binary32.rnd (2 ^ 129 - 2 ^ 105) = 2 ^ 129 - 2 ^ 105 := by
    apply rnd_of_mul binary32 binary32_valid.1 (m := 2 ^ (24 : ℕ) - 1) (g := 105) _
      (by decide) (by norm_num)
    · show (2 ^ 129 - 2 ^ 105 : ℚ) ≤ 2 ^ ((105 : ℤ) + 24)
      norm_num
    · norm_num
  unfold FpFormat.round
  rw [h, emax32, if_pos (by norm_num)]

theorem rnd32_three : binary32.rnd 3 = 3 := by
  rw [rnd32_eq_of_pos (e := 1) (m := 3 * 2 ^ (22 : ℕ)) (by norm_num) (by norm_num)
    (by norm_num) (by rw [abs_lt]; constructor <;> norm_num)]
  norm_num

theorem rnd32_four : binary32.rnd 4 = 4 := by
  have h := rnd_zpow binary32 binary32_valid.1 (n := 2) (by decide)
  have e : (2 : ℚ) ^ (2 : ℤ) = 4 := by norm_num
  rwa [e] at h

theorem rnd32_half : binary32.rnd (1 / 2) = 1 / 2 := by
  have h := rnd_zpow binary32 binary32_valid.1 (n := -1) (by decide)
  have e : (2 : ℚ) ^ (-1 : ℤ) = 1 / 2 := by norm_num
  rwa [e] at h

theorem rnd32_below_one : binary32.rnd (1 - 1 / 2 ^ (24 : ℕ)) = 1 - 1 / 2 ^ (24 : ℕ) := by
  rw [rnd32_eq_of_pos (e := -1) (m := 2 ^ (24 : ℕ) - 1) (by norm_num) (by norm_num)
    (by norm_num) (by rw [abs_lt]; constructor <;> norm_num)]
  norm_num

theorem isNum32_three : binary32.isNum 3 :=
  ⟨rnd32_three, by rw [emax32, abs_lt]; constructor <;> norm_num⟩

theorem isNum32_four : binary32.isNum 4 :=
  ⟨rnd32_four, by rw [emax32, abs_lt]; constructor <;> norm_num⟩

theorem isNum32_half : binary32.isNum (1 / 2) :=
  ⟨rnd32_half, by rw [emax32, abs_lt]; constructor <;> norm_num⟩

theorem isNum32_below_one : binary32.isNum (1 - 1 / 2 ^ (24 : ℕ)) :=
  ⟨rnd32_below_one, by rw [emax32, abs_lt]; constructor <;> norm_num⟩

theorem fit32_one : (4 : ℚ) - 3 ≤ binary32.maxNum := by
  rw [maxNum32]; norm_num

/-! # The claims -/

/-- C8: for every tensor `t`, `noGrad(t)` equals `input(t)`, both hold `t` unchanged with
gradient tracking false, and `param(t)` holds `t` unchanged with gradient tracking
true. -/
theorem noGrad_input_param (t : af.array) :
    fl.noGrad t = fl.input t ∧ (fl.input t).array = t ∧ (fl.input t).calcGrad = false ∧
      (fl.noGrad t).array = t ∧ (fl.noGrad t).calcGrad = false ∧
      (fl.param t).array = t ∧ (fl.param t).calcGrad = true :=
  ⟨rfl, rfl, rfl, rfl, rfl, rfl, rfl⟩

/-- C7: `constant(v, dims, type, calcGrad)` is a Variable whose tensor has shape `dims`,
as many elements as the shape has, each equal to `v`, and whose flag is `calcGrad`; the
`(outputSize, inputSize)` overload is the shape overload at the shape
`(outputSize, inputSize, 1, 1)`. -/
theorem constant_fills (v : double) (dims : af.dim4) (ty : af.dtype) (calcGrad : Bool)
    (outputSize inputSize : ℤ) :
    (fl.constant v dims ty calcGrad).array.dims = dims ∧
      (fl.constant v dims ty calcGrad).array.type = ty ∧
      (fl.constant v dims ty calcGrad).array.data.length = dims.elements.toNat ∧
      (∀ e ∈ (fl.constant v dims ty calcGrad).array.data, e = v) ∧
      (fl.constant v dims ty calcGrad).calcGrad = calcGrad ∧
      fl.constant2 v outputSize inputSize ty calcGrad =
        fl.constant v (af.dim4.mk outputSize inputSize 1 1) ty calcGrad := by
  refine ⟨rfl, rfl, ?_, ?_, rfl, rfl⟩
  · simp [fl.constant, af.constant]
  · intro e he
    simp only [fl.constant, af.constant] at he
    exact List.eq_of_mem_replicate he

/-- C9: each Variable-returning initialiser returns the tensor of the tensor-returning
function on the same arguments and draw, tagged with `calcGrad` (and fails when that one
fails); the `(outputSize, inputSize)` overloads of `uniform` and `normal` are the shape
overloads at the shape `(outputSize, inputSize, 1, 1)`. -/
theorem variable_overloads_wrap {ε : Type} (B : af.Backend ε) (shape : af.dim4)
    (a b : double) (fanIn fanOut outputSize inputSize : ℤ) (ty : af.dtype) (calcGrad : Bool) :
    fl.uniform B shape a b ty calcGrad =
        (af.uniform B shape a b ty).map (fun t => fl.Variable.mk t calcGrad) ∧
      fl.normal B shape a b ty calcGrad =
        (af.normal B shape a b ty).map (fun t => fl.Variable.mk t calcGrad) ∧
      fl.kaimingUniform B shape fanIn ty calcGrad =
        (af.kaimingUniform B shape fanIn ty).map (fun t => fl.Variable.mk t calcGrad) ∧
      fl.kaimingNormal B shape fanIn ty calcGrad =
        (af.kaimingNormal B shape fanIn ty).map (fun t => fl.Variable.mk t calcGrad) ∧
      fl.glorotUniform B shape fanIn fanOut ty calcGrad =
        (af.glorotUniform B shape fanIn fanOut ty).map (fun t => fl.Variable.mk t calcGrad) ∧
      fl.glorotNormal B shape fanIn fanOut ty calcGrad =
        (af.glorotNormal B shape fanIn fanOut ty).map (fun t => fl.Variable.mk t calcGrad) ∧
      fl.uniform2 B outputSize inputSize a b ty calcGrad =
        fl.uniform B (af.dim4.mk outputSize inputSize 1 1) a b ty calcGrad ∧
      fl.normal2 B outputSize inputSize a b ty calcGrad =
        fl.normal B (af.dim4.mk outputSize inputSize 1 1) a b ty calcGrad := by
  refine ⟨?_, ?_, ?_, ?_, ?_, ?_, rfl, rfl⟩
  · unfold fl.uniform; cases af.uniform B shape a b ty <;> rfl
  · unfold fl.normal; cases af.normal B shape a b ty <;> rfl
  · unfold fl.kaimingUniform; cases af.kaimingUniform B shape fanIn ty <;> rfl
  · unfold fl.kaimingNormal; cases af.kaimingNormal B shape fanIn ty <;> rfl
  · unfold fl.glorotUniform; cases af.glorotUniform B shape fanIn fanOut ty <;> rfl
  · unfold fl.glorotNormal; cases af.glorotNormal B shape fanIn fanOut ty <;> rfl

/-- C10: for `fanIn > 0` whose double `fanIn + fanIn` fits the 32-bit `int`, the bounds of
`glorotUniform(shape, fanIn, fanIn)` and `kaimingUniform(shape, fanIn)` coincide and the
two return the same tensor on the same draw; `glorotUniform(shape, a, b)` equals
`glorotUniform(shape, b, a)`. -/
theorem glorot_eq_kaiming {ε : Type} (B : af.Backend ε) (shape : af.dim4) (fanIn a b : ℤ)
    (ty : af.dtype) (hpos : 0 < fanIn) (hfit : fanIn + fanIn < 2 ^ 31) :
    af.glorotLimit fanIn fanIn = af.kaimingLimit fanIn ∧
      af.glorotUniform B shape fanIn fanIn ty = af.kaimingUniform B shape fanIn ty ∧
      af.glorotUniform B shape a b ty = af.glorotUniform B shape b a ty := by
  have hsum : int.add fanIn fanIn = fanIn + fanIn := int_add_of_range (by omega) hfit
  have hlim : af.glorotLimit fanIn fanIn = af.kaimingLimit fanIn := by
    have hq : (0 : ℚ) < fanIn := by exact_mod_cast hpos
    have hq2 : ((fanIn + fanIn : ℤ) : ℚ) ≠ 0 := by
      have : (0 : ℚ) < ((fanIn + fanIn : ℤ) : ℚ) := by push_cast; linarith
      exact this.ne'
    have e : (2 : ℚ) / ((fanIn + fanIn : ℤ) : ℚ) = 1 / (fanIn : ℚ) := by
      push_cast
      field_simp
      ring
    unfold af.glorotLimit af.kaimingLimit double.ofInt
    simp only
    rw [hsum, double_div_fin hq2, double_div_fin hq.ne', e]
  refine ⟨hlim, ?_, ?_⟩
  · unfold af.glorotUniform af.kaimingUniform
    rw [hlim]
  · unfold af.glorotUniform af.glorotLimit
    rw [int_add_comm a b]

/-- Witness of `glorot_eq_kaiming` at `fanIn = 3`. -/
theorem glorot_eq_kaiming_witness :
    (0 : ℤ) < 3 ∧ (3 : ℤ) + 3 < 2 ^ 31 ∧
      (af.glorotLimit 3 3 = af.kaimingLimit 3 ∧
        af.glorotUniform
            (constBackend (af.array.ofList [double.fin 0, double.fin (1 / 2)])
              (af.array.ofList []))
            (af.dim4.mk 2 1 1 1) 3 3 af.dtype.f64 =
          af.kaimingUniform
            (constBackend (af.array.ofList [double.fin 0, double.fin (1 / 2)])
              (af.array.ofList []))
            (af.dim4.mk 2 1 1 1) 3 af.dtype.f64 ∧
        af.glorotUniform
            (constBackend (af.array.ofList [double.fin 0, double.fin (1 / 2)])
              (af.array.ofList []))
            (af.dim4.mk 2 1 1 1) 5 7 af.dtype.f64 =
          af.glorotUniform
            (constBackend (af.array.ofList [double.fin 0, double.fin (1 / 2)])
              (af.array.ofList []))
            (af.dim4.mk 2 1 1 1) 7 5 af.dtype.f64) :=
  ⟨by decide, by decide,
    glorot_eq_kaiming
      (constBackend (af.array.ofList [double.fin 0, double.fin (1 / 2)])
        (af.array.ofList []))
      (af.dim4.mk 2 1 1 1) 3 5 7 af.dtype.f64 (by decide) (by decide)⟩

/-- C1, counterexample: the interval `[min, max)` is not kept.  On an `f64` tensor, with
`min = 3`, `max = 4` and the draw `1 - 2^-53`, the largest binary64 number below 1, the
element is `4 = max`; with `min = max = 0` and the draw `0` the element is `0`, and
`[0, 0)` is empty; with `min = -DBL_MAX`, `max = DBL_MAX` and the draw `1/2` the
difference `max - min` overflows and the element is `+inf`.  On an `f32` tensor, with
`max = 1`, the draw `0` and `min` the `double` `0.7`, which is not a binary32 number, the
element is `min` converted to binary32, `0.699999988`, below `min`; and with
`min = -FLT_MAX`, `max = FLT_MAX` and the draw `1/2` the difference is finite as a
`double`, overflows when converted to binary32, and the element is `+inf`. -/
theorem uniform_reaches_max :
    isDbl (1 - 1 / 2 ^ (53 : ℕ)) ∧ (0 : ℚ) ≤ 1 - 1 / 2 ^ (53 : ℕ) ∧
      (1 - 1 / 2 ^ (53 : ℕ) : ℚ) < 1 ∧
      af.uniform
          (constBackend (af.array.ofList [double.fin (1 - 1 / 2 ^ (53 : ℕ))])
            (af.array.ofList []))
          (af.dim4.mk 1 1 1 1) (double.fin 3) (double.fin 4) af.dtype.f64 =
        Except.ok (af.array.ofList [double.fin 4]) ∧
      ¬ ((3 : ℚ) ≤ 4 ∧ (4 : ℚ) < 4) ∧
      af.uniform (constBackend (af.array.ofList [double.fin 0]) (af.array.ofList []))
          (af.dim4.mk 1 1 1 1) (double.fin 0) (double.fin 0) af.dtype.f64 =
        Except.ok (af.array.ofList [double.fin 0]) ∧
      ¬ ((0 : ℚ) ≤ 0 ∧ (0 : ℚ) < 0) ∧
      isDbl dblMax ∧ isDbl (-dblMax) ∧
      af.uniform (constBackend (af.array.ofList [double.fin (1 / 2)]) (af.array.ofList []))
          (af.dim4.mk 1 1 1 1) (double.fin (-dblMax)) (double.fin dblMax) af.dtype.f64 =
        Except.ok (af.array.ofList [double.pinf]) ∧
      isDbl (3152519739159347 / 4503599627370496) ∧
      af.uniform
          (constBackend (af.array.ofListAs af.dtype.f32 [double.fin 0]) (af.array.ofList []))
          (af.dim4.mk 1 1 1 1) (double.fin (3152519739159347 / 4503599627370496))
          (double.fin 1) af.dtype.f32 =
        Except.ok (af.array.ofListAs af.dtype.f32 [double.fin (11744051 / 16777216)]) ∧
      (11744051 / 16777216 : ℚ) < 3152519739159347 / 4503599627370496 ∧
      binary32.isNum binary32.maxNum ∧ binary32.isNum (-binary32.maxNum) ∧
      af.uniform
          (constBackend (af.array.ofListAs af.dtype.f32 [double.fin (1 / 2)])
            (af.array.ofList []))
          (af.dim4.mk 1 1 1 1) (double.fin (-binary32.maxNum)) (double.fin binary32.maxNum)
          af.dtype.f32 =
        Except.ok (af.array.ofListAs af.dtype.f32 [double.pinf]) := by
  refine ⟨⟨rnd64_below_one, by rw [abs_lt]; constructor <;> norm_num⟩, by norm_num,
    by norm_num, ?_, by norm_num, ?_, by norm_num, isDbl_dblMax, isDbl_neg isDbl_dblMax, ?_,
    ⟨rnd64_seven_tenths, by rw [abs_lt]; constructor <;> norm_num⟩, ?_, by norm_num,
    isNum_maxNum binary32 binary32_valid,
    isNum_neg binary32 (isNum_maxNum binary32 binary32_valid), ?_⟩
  · rw [uniform_ok _ _ _ _ _ _ rfl]
    simp only [af.array.scale, af.array.plus, af.array.ofList, List.map, double_sub_fin,
      af.dtype.format, cast64_fin, mul64_fin, add64_fin]
    have e1 : double.round ((4 : ℚ) + -3) = double.fin 1 :=
      round_eq_of (by norm_num [rnd64_one]) (by rw [abs_le]; constructor <;> norm_num)
    have e0 : double.round (1 : ℚ) = double.fin 1 :=
      round_eq_of rnd64_one (by rw [abs_le]; constructor <;> norm_num)
    have e3 : double.round (3 : ℚ) = double.fin 3 :=
      round_eq_of rnd64_three (by rw [abs_le]; constructor <;> norm_num)
    rw [e1, cast64_fin, e0, mul64_fin, one_mul,
      round_eq_of rnd64_below_one (by rw [abs_le]; constructor <;> norm_num),
      e3, add64_fin,
      round_eq_of rnd64_below_four (by rw [abs_le]; constructor <;> norm_num)]
    rfl
  · rw [uniform_ok _ _ _ _ _ _ rfl]
    simp only [af.array.scale, af.array.plus, af.array.ofList, List.map, double_sub_fin,
      af.dtype.format, cast64_fin, mul64_fin, add64_fin]
    have e1 : double.round ((0 : ℚ) + -0) = double.fin 0 :=
      round_eq_of (by norm_num [rnd64_zero]) (by rw [abs_le]; constructor <;> norm_num)
    have e2 : double.round ((0 : ℚ) + 0) = double.fin 0 :=
      round_eq_of (by norm_num [rnd64_zero]) (by rw [abs_le]; constructor <;> norm_num)
    have e3 : double.round ((0 : ℚ) * 0) = double.fin 0 :=
      round_eq_of (by norm_num [rnd64_zero]) (by rw [abs_le]; constructor <;> norm_num)
    have e0 : double.round (0 : ℚ) = double.fin 0 :=
      round_eq_of rnd64_zero (by rw [abs_le]; constructor <;> norm_num)
    rw [e1, cast64_fin, e0, mul64_fin, e3, add64_fin, e2]
  · rw [uniform_ok _ _ _ _ _ _ rfl]
    simp only [af.array.scale, af.array.plus, af.array.ofList, List.map, double_sub_fin,
      af.dtype.format]
    rw [round_two_dblMax]
    simp only [FpFormat.cast]
    rw [round_of_isNum binary64 isNum64_neg_dblMax]
    simp [FpFormat.mul, FpFormat.add, double.infTimes]
  · rw [uniform_ok _ _ _ _ _ _ rfl]
    simp only [af.array.scale, af.array.plus, af.array.ofListAs, List.map, double_sub_fin,
      af.dtype.format]
    have e1 : double.round ((1 : ℚ) + -(3152519739159347 / 4503599627370496)) =
        double.fin (1351079888211149 / 4503599627370496) :=
      round_eq_of
        (by
          rw [rnd64_eq_of_pos (e := -2) (m := 5404319552844596) (by norm_num) (by norm_num)
            (by norm_num) (by rw [abs_lt]; constructor <;> norm_num)]
          norm_num)
        (by rw [abs_le]; constructor <;> norm_num)
    have e2 : binary32.round (1351079888211149 / 4503599627370496) =
        double.fin (5033165 / 16777216) :=
      round32_eq_of
        (by
          rw [rnd32_eq_of_pos (e := -2) (m := 10066330) (by norm_num) (by norm_num)
            (by norm_num) (by rw [abs_lt]; constructor <;> norm_num)]
          norm_num)
        (by rw [abs_le]; constructor <;> norm_num)
    have e3 : binary32.round (5033165 / 16777216 * 0) = double.fin 0 :=
      round32_eq_of (by rw [mul_zero]; exact rnd_zero binary32)
        (by rw [abs_le]; constructor <;> norm_num)
    have e4 : binary32.round (3152519739159347 / 4503599627370496) =
        double.fin (11744051 / 16777216) :=
      round32_eq_of
        (by
          rw [rnd32_eq_of_pos (e := -1) (m := 11744051) (by norm_num) (by norm_num)
            (by norm_num) (by rw [abs_lt]; constructor <;> norm_num)]
          norm_num)
        (by rw [abs_le]; constructor <;> norm_num)
    have e5 : binary32.round (0 + 11744051 / 16777216) = double.fin (11744051 / 16777216) :=
      round32_eq_of
        (by
          rw [rnd32_eq_of_pos (e := -1) (m := 11744051) (by norm_num) (by norm_num)
            (by norm_num) (by rw [abs_lt]; constructor <;> norm_num)]
          norm_num)
        (by rw [abs_le]; constructor <;> norm_num)
    rw [e1]
    simp only [FpFormat.cast]
    rw [e2, e4]
    simp only [FpFormat.mul]
    rw [e3]
    simp only [FpFormat.add]
    rw [e5]
    rfl
  · rw [uniform_ok _ _ _ _ _ _ rfl]
    simp only [af.array.scale, af.array.plus, af.array.ofListAs, List.map, double_sub_fin,
      af.dtype.format]
    rw [round_two_fltMax]
    simp only [FpFormat.cast]
    rw [round32_two_fltMax, round_of_isNum binary32
      (isNum_neg binary32 (isNum_maxNum binary32 binary32_valid))]
    simp [FpFormat.mul, FpFormat.add, double.infTimes]

/-- C1, amended: on a tensor of element type `f32` or `f64`, with bounds `min ≤ max` that
are numbers of the element type and whose difference does not exceed the largest number
of that type, and a draw of that type whose elements lie in `[0, 1)`, every element of
`uniform(shape, min, max)`, computed as `(max - min) * draw + min` in the arithmetic of
the element type, is a finite number of the type in the closed interval `[min, max]`. -/
theorem uniform_within_closed_interval {ε : Type} (B : af.Backend ε) (shape : af.dim4)
    (mn mx : ℚ) (ty : af.dtype) (draw : af.array)
    (hty : ty = af.dtype.f32 ∨ ty = af.dtype.f64)
    (hmn : ty.format.isNum mn) (hmx : ty.format.isNum mx) (hle : mn ≤ mx)
    (hfit : mx - mn ≤ ty.format.maxNum)
    (hdraw : B.randu shape ty = Except.ok draw) (htype : draw.type = ty)
    (hunit : ∀ x ∈ draw.data,
      ∃ q : ℚ, x = double.fin q ∧ ty.format.isNum q ∧ 0 ≤ q ∧ q < 1) :
    ∃ t : af.array,
      af.uniform B shape (double.fin mn) (double.fin mx) ty = Except.ok t ∧
        t.dims = draw.dims ∧ t.type = ty ∧ t.data.length = draw.data.length ∧
        ∀ e ∈ t.data, ∃ r : ℚ, e = double.fin r ∧ ty.format.isNum r ∧ mn ≤ r ∧ r ≤ mx := by
  have hF : ty.format.valid ∧ ty.format.within binary64 := by
    rcases hty with h | h <;> subst h
    · exact ⟨binary32_valid, binary32_within⟩
    · exact ⟨binary64_valid, binary64_within⟩
  refine ⟨_, uniform_ok B shape _ _ ty draw hdraw, rfl, htype, ?_, ?_⟩
  · simp [af.array.scale, af.array.plus]
  · intro e he
    simp only [af.array.scale, af.array.plus, List.map_map, List.mem_map,
      Function.comp] at he
    obtain ⟨x, hx, rfl⟩ := he
    obtain ⟨q, rfl, hq, hq0, hq1⟩ := hunit x hx
    rw [htype]
    exact uniform_elem ty.format hF.1 hF.2 hmn hmx hle hfit hq hq0 hq1

/-- Witness of `uniform_within_closed_interval` on an `f32` tensor, at `min = 3`,
`max = 4` and the draw `[0, 1/2, 1 - 2^-24]`. -/
theorem uniform_within_closed_interval_witness :
    (af.dtype.f32 = af.dtype.f32 ∨ af.dtype.f32 = af.dtype.f64) ∧
      af.dtype.f32.format.isNum 3 ∧ af.dtype.f32.format.isNum 4 ∧ (3 : ℚ) ≤ 4 ∧
      (4 : ℚ) - 3 ≤ af.dtype.f32.format.maxNum ∧
      ∃ t : af.array,
        af.uniform
            (constBackend
              (af.array.ofListAs af.dtype.f32 [double.fin 0, double.fin (1 / 2),
                double.fin (1 - 1 / 2 ^ (24 : ℕ))])
              (af.array.ofList []))
            (af.dim4.mk 3 1 1 1) (double.fin 3) (double.fin 4) af.dtype.f32 = Except.ok t ∧
          t.dims =
            (af.array.ofListAs af.dtype.f32 [double.fin 0, double.fin (1 / 2),
              double.fin (1 - 1 / 2 ^ (24 : ℕ))]).dims ∧
          t.type = af.dtype.f32 ∧
          t.data.length =
            (af.array.ofListAs af.dtype.f32 [double.fin 0, double.fin (1 / 2),
              double.fin (1 - 1 / 2 ^ (24 : ℕ))]).data.length ∧
          ∀ e ∈ t.data,
            ∃ r : ℚ, e = double.fin r ∧ af.dtype.f32.format.isNum r ∧ 3 ≤ r ∧ r ≤ 4 :=
  ⟨Or.inl rfl, isNum32_three, isNum32_four, by norm_num, fit32_one,
    uniform_within_closed_interval
      (constBackend
        (af.array.ofListAs af.dtype.f32 [double.fin 0, double.fin (1 / 2),
          double.fin (1 - 1 / 2 ^ (24 : ℕ))])
        (af.array.ofList []))
      (af.dim4.mk 3 1 1 1) 3 4 af.dtype.f32
      (af.array.ofListAs af.dtype.f32 [double.fin 0, double.fin (1 / 2),
        double.fin (1 - 1 / 2 ^ (24 : ℕ))])
      (Or.inl rfl) isNum32_three isNum32_four (by norm_num) fit32_one rfl rfl
      (by
        intro x hx
        simp only [af.array.ofListAs, List.mem_cons, List.mem_singleton, List.not_mem_nil,
          or_false] at hx
        rcases hx with h | h | h
        · exact ⟨0, h, isNum_zero binary32, le_refl _, by norm_num⟩
        · exact ⟨1 / 2, h, isNum32_half, by norm_num, by norm_num⟩
        · exact ⟨1 - 1 / 2 ^ (24 : ℕ), h, isNum32_below_one, by norm_num, by norm_num⟩)⟩

/-- C2, counterexample: at `fanIn = 3` the bound `sqrt(3.0) * sqrt(1.0 / 3)` computed by
the code is `1 - 2^-53` (printed `0.9999999999999999`), while `sqrt(3.0 / 3)` is `1`, in
binary64 as over the reals. -/
theorem kaimingLimit_three_inexact :
    af.kaimingLimit 3 = double.fin (1 - 1 / 2 ^ (53 : ℕ)) ∧
      double.sqrt (double.div (double.fin 3) (double.ofInt 3)) = double.fin 1 ∧
      ((1 - 1 / 2 ^ (53 : ℕ) : ℚ) : ℝ) ≠ √(3 / ((3 : ℤ) : ℝ)) := by
  refine ⟨?_, ?_, ?_⟩
  · rw [kaimingLimit_of_pos (by norm_num) (by norm_num)]
    push_cast
    rw [rnd64_third, sqrtRN_rnd_third, sqrtRN_three, kaimingLimit_three_val]
  · unfold double.ofInt
    rw [double_div_fin (by norm_num)]
    have e : ((3 : ℚ) / ((3 : ℤ) : ℚ)) = 1 := by norm_num
    rw [e, round_eq_of rnd64_one (by rw [abs_le]; constructor <;> norm_num),
      double_sqrt_fin (by norm_num), sqrtRN_one]
  · have : (3 : ℝ) / ((3 : ℤ) : ℝ) = 1 := by norm_num
    rw [this, Real.sqrt_one]
    push_cast
    norm_num

/-- C2, amended: for every positive `int` `fanIn`, the bound of
`kaimingUniform(shape, fanIn)` is a finite binary64 number `b` that agrees with
`sqrt(3 / fanIn)` up to the relative error `2^-51` of the four roundings, whatever the
draw, and the returned tensor is `uniform(shape, -b, b)` on the same draw. -/
theorem kaimingUniform_bound {ε : Type} (B : af.Backend ε) (shape : af.dim4) (fanIn : ℤ)
    (ty : af.dtype) (hpos : 0 < fanIn) (hint : fanIn < 2 ^ 31) :
    ∃ b : ℚ, af.kaimingLimit fanIn = double.fin b ∧
      |(b : ℝ) - √(3 / (fanIn : ℝ))| ≤ √(3 / (fanIn : ℝ)) / 2 ^ (51 : ℕ) ∧
      af.kaimingUniform B shape fanIn ty =
        af.uniform B shape (double.fin (-b)) (double.fin b) ty := by
  have hq : (0 : ℚ) < fanIn := by exact_mod_cast hpos
  have hq1 : (1 : ℚ) ≤ fanIn := by exact_mod_cast hpos
  have hq2 : (fanIn : ℚ) ≤ 2 ^ (31 : ℕ) := by exact_mod_cast hint.le
  have hA1 : (2 : ℚ) ^ (-64 : ℤ) ≤ 1 / (fanIn : ℚ) := by
    rw [le_div_iff₀ hq]
    have : (2 : ℚ) ^ (-64 : ℤ) * 2 ^ (31 : ℕ) ≤ 1 := by norm_num
    have h0 : (0 : ℚ) ≤ 2 ^ (-64 : ℤ) := (two_zpow_pos _).le
    nlinarith
  have hA2 : 1 / (fanIn : ℚ) ≤ 2 := by
    rw [div_le_iff₀ hq]; linarith
  refine ⟨_, kaimingLimit_of_pos hpos hint, ?_, ?_⟩
  · have h := (limit_facts hA1 hA2).2.2.2.2
    have e : (3 : ℝ) * ((1 / (fanIn : ℚ) : ℚ) : ℝ) = 3 / (fanIn : ℝ) := by
      push_cast; ring
    rw [e] at h
    exact h
  · unfold af.kaimingUniform
    simp only
    rw [kaimingLimit_of_pos hpos hint]
    rfl

/-- Witness of `kaimingUniform_bound` at `fanIn = 3`. -/
theorem kaimingUniform_bound_witness :
    (0 : ℤ) < 3 ∧ (3 : ℤ) < 2 ^ 31 ∧
      ∃ b : ℚ, af.kaimingLimit 3 = double.fin b ∧
        |(b : ℝ) - √(3 / ((3 : ℤ) : ℝ))| ≤ √(3 / ((3 : ℤ) : ℝ)) / 2 ^ (51 : ℕ) ∧
        af.kaimingUniform
            (constBackend (af.array.ofList [double.fin 0, double.fin (1 / 2)])
              (af.array.ofList []))
            (af.dim4.mk 2 1 1 1) 3 af.dtype.f64 =
          af.uniform
            (constBackend (af.array.ofList [double.fin 0, double.fin (1 / 2)])
              (af.array.ofList []))
            (af.dim4.mk 2 1 1 1) (double.fin (-b)) (double.fin b) af.dtype.f64 :=
  ⟨by decide, by decide,
    kaimingUniform_bound
      (constBackend (af.array.ofList [double.fin 0, double.fin (1 / 2)])
        (af.array.ofList []))
      (af.dim4.mk 2 1 1 1) 3 af.dtype.f64 (by decide) (by decide)⟩

/-- C3, counterexample: with `fanIn = fanOut = 2^30` the sum is positive but the `int` sum
of the code wraps to `-2^31`, and the bound is `NaN`; with `fanIn = 1`, `fanOut = 0` the
bound `sqrt(3.0) * sqrt(2.0 / 1)` is one unit in the last place above the binary64
`sqrt(6.0 / 1)`, and its square is not `6`. -/
theorem glorotLimit_overflow_and_inexact :
    isInt32 (2 ^ 30) ∧ (0 : ℤ) < 2 ^ 30 + 2 ^ 30 ∧ int.add (2 ^ 30) (2 ^ 30) = -2 ^ 31 ∧
      af.glorotLimit (2 ^ 30) (2 ^ 30) = double.nan ∧
      af.glorotLimit 1 0 = double.fin (5515760546423087 / 2251799813685248) ∧
      double.sqrt (double.div (double.fin 6) (double.ofInt (1 + 0))) =
        double.fin (5515760546423086 / 2251799813685248) ∧
      ((5515760546423087 / 2251799813685248 : ℚ) : ℝ) ≠ √(6 / ((1 + 0 : ℤ) : ℝ)) := by
  refine ⟨by decide, by decide, by decide, ?_, ?_, ?_, ?_⟩
  · exact glorotLimit_of_neg (by decide)
  · have h1 : int.add 1 0 = 1 := by decide
    rw [glorotLimit_of_pos (by rw [h1]; norm_num), h1]
    push_cast
    have : (2 : ℚ) / 1 = 2 := by norm_num
    rw [this, rnd64_two, sqrtRN_two, sqrtRN_three, glorotLimit_one_val]
  · unfold double.ofInt
    rw [double_div_fin (by norm_num)]
    have e : ((6 : ℚ) / ((1 + 0 : ℤ) : ℚ)) = 6 := by norm_num
    rw [e, round_eq_of rnd64_six (by rw [abs_le]; constructor <;> norm_num),
      double_sqrt_fin (by norm_num), sqrtRN_six]
    norm_num
  · intro h
    have h6 : (6 : ℝ) / ((1 + 0 : ℤ) : ℝ) = 6 := by norm_num
    rw [h6] at h
    have h2 : (((5515760546423087 / 2251799813685248 : ℚ) : ℝ)) ^ 2 = 6 := by
      rw [h, Real.sq_sqrt (by norm_num)]
    norm_num at h2

/-- C3, amended: for `int`s `fanIn`, `fanOut` whose sum as the code forms it, the 32-bit
`int` sum, is positive, the bound of `glorotUniform(shape, fanIn, fanOut)` is a finite
binary64 number `b` that agrees with `sqrt(6 / sum)` up to the relative error `2^-51` of
the four roundings, and the returned tensor is `uniform(shape, -b, b)` on the same draw;
the `int` sum is `fanIn + fanOut` when that fits 32 bits. -/
theorem glorotUniform_bound {ε : Type} (B : af.Backend ε) (shape : af.dim4)
    (fanIn fanOut : ℤ) (ty : af.dtype) (_hin : isInt32 fanIn) (_hout : isInt32 fanOut)
    (hpos : 0 < int.add fanIn fanOut) :
    (∃ b : ℚ, af.glorotLimit fanIn fanOut = double.fin b ∧
      |(b : ℝ) - √(6 / ((int.add fanIn fanOut : ℤ) : ℝ))| ≤
        √(6 / ((int.add fanIn fanOut : ℤ) : ℝ)) / 2 ^ (51 : ℕ) ∧
      af.glorotUniform B shape fanIn fanOut ty =
        af.uniform B shape (double.fin (-b)) (double.fin b) ty) ∧
      (isInt32 (fanIn + fanOut) → int.add fanIn fanOut = fanIn + fanOut) := by
  have hq : (0 : ℚ) < (int.add fanIn fanOut : ℤ) := by exact_mod_cast hpos
  have hq1 : (1 : ℚ) ≤ (int.add fanIn fanOut : ℤ) := by exact_mod_cast hpos
  have hq2 : ((int.add fanIn fanOut : ℤ) : ℚ) ≤ 2 ^ (31 : ℕ) := by
    have := (int_add_range fanIn fanOut).2
    exact_mod_cast this.le
  have hA1 : (2 : ℚ) ^ (-64 : ℤ) ≤ 2 / ((int.add fanIn fanOut : ℤ) : ℚ) := by
    rw [le_div_iff₀ hq]
    have : (2 : ℚ) ^ (-64 : ℤ) * 2 ^ (31 : ℕ) ≤ 1 := by norm_num
    have h0 : (0 : ℚ) ≤ 2 ^ (-64 : ℤ) := (two_zpow_pos _).le
    nlinarith
  have hA2 : 2 / ((int.add fanIn fanOut : ℤ) : ℚ) ≤ 2 := by
    rw [div_le_iff₀ hq]; linarith
  refine ⟨⟨_, glorotLimit_of_pos hpos, ?_, ?_⟩, fun h => int_add_of_range h.1 h.2⟩
  · have h := (limit_facts hA1 hA2).2.2.2.2
    have e : (3 : ℝ) * ((2 / ((int.add fanIn fanOut : ℤ) : ℚ) : ℚ) : ℝ) =
        6 / ((int.add fanIn fanOut : ℤ) : ℝ) := by
      push_cast; ring
    rw [e] at h
    exact h
  · unfold af.glorotUniform
    simp only
    rw [glorotLimit_of_pos hpos]
    rfl

/-- Witness of `glorotUniform_bound` at `fanIn = 1`, `fanOut = 0`. -/
theorem glorotUniform_bound_witness :
    isInt32 1 ∧ isInt32 0 ∧ 0 < int.add 1 0 ∧
      ((∃ b : ℚ, af.glorotLimit 1 0 = double.fin b ∧
        |(b : ℝ) - √(6 / ((int.add 1 0 : ℤ) : ℝ))| ≤
          √(6 / ((int.add 1 0 : ℤ) : ℝ)) / 2 ^ (51 : ℕ) ∧
        af.glorotUniform
            (constBackend (af.array.ofList [double.fin 0, double.fin (1 / 2)])
              (af.array.ofList []))
            (af.dim4.mk 2 1 1 1) 1 0 af.dtype.f64 =
          af.uniform
            (constBackend (af.array.ofList [double.fin 0, double.fin (1 / 2)])
              (af.array.ofList []))
            (af.dim4.mk 2 1 1 1) (double.fin (-b)) (double.fin b) af.dtype.f64) ∧
        (isInt32 ((1 : ℤ) + 0) → int.add 1 0 = 1 + 0)) :=
  ⟨by decide, by decide, by decide,
    glorotUniform_bound
      (constBackend (af.array.ofList [double.fin 0, double.fin (1 / 2)])
        (af.array.ofList []))
      (af.dim4.mk 2 1 1 1) 1 0 af.dtype.f64 (by decide) (by decide) (by decide)⟩

/-- C5, counterexample: `kaimingUniform` with `fanIn = 0` raises nothing.  The bound is
`+inf` and, the draw succeeding, the call returns a tensor whose elements all are `NaN`;
with `fanIn = -2` the bound is `NaN` and the same tensor is returned. -/
theorem kaimingUniform_zero_fanIn_returns :
    af.kaimingLimit 0 = double.pinf ∧
      af.kaimingUniform
          (constBackend (af.array.ofList [double.fin 0, double.fin (1 / 2)])
            (af.array.ofList []))
          (af.dim4.mk 2 1 1 1) 0 af.dtype.f64 =
        Except.ok (af.array.ofList [double.nan, double.nan]) ∧
      af.kaimingUniform
          (constBackend (af.array.ofList [double.fin 0, double.fin (1 / 2)])
            (af.array.ofList []))
          (af.dim4.mk 2 1 1 1) 0 af.dtype.f64 ≠
        Except.error InitError.InvalidParameter ∧
      af.kaimingLimit (-2) = double.nan ∧
      af.kaimingUniform
          (constBackend (af.array.ofList [double.fin 0, double.fin (1 / 2)])
            (af.array.ofList []))
          (af.dim4.mk 2 1 1 1) (-2) af.dtype.f64 =
        Except.ok (af.array.ofList [double.nan, double.nan]) := by
  have h0 : af.kaimingUniform
      (constBackend (af.array.ofList [double.fin 0, double.fin (1 / 2)])
        (af.array.ofList []))
      (af.dim4.mk 2 1 1 1) 0 af.dtype.f64 =
      Except.ok (af.array.ofList [double.nan, double.nan]) := by
    unfold af.kaimingUniform
    simp only
    rw [kaimingLimit_zero, uniform_ok _ _ _ _ _ _ rfl, affine_inf]
    · rfl
    · intro x hx
      simp only [af.array.ofList, List.mem_cons, List.mem_singleton, List.not_mem_nil,
        or_false] at hx
      rcases hx with h | h
      · exact ⟨0, h, le_refl _⟩
      · exact ⟨1 / 2, h, by norm_num⟩
  refine ⟨kaimingLimit_zero, h0, ?_, kaimingLimit_of_neg (by decide) (by decide), ?_⟩
  · rw [h0]
    intro h
    cases h
  · unfold af.kaimingUniform
    simp only
    rw [kaimingLimit_of_neg (by decide) (by decide), uniform_ok _ _ _ _ _ _ rfl, affine_nan]
    rfl

/-- C5, amended: `kaimingUniform` has no check of `fanIn`.  For an `int` `fanIn ≤ 0` it
fails exactly when the draw of the backend fails, with that error; when the draw succeeds
with finite values that are not negative, it returns the tensor of the shape of the draw
whose elements all are `NaN`. -/
theorem kaimingUniform_nonpositive_fanIn {ε : Type} (B : af.Backend ε) (shape : af.dim4)
    (fanIn : ℤ) (ty : af.dtype) (hle : fanIn ≤ 0) (hint : -2 ^ 31 ≤ fanIn) :
    (∀ e : ε, B.randu shape ty = Except.error e →
        af.kaimingUniform B shape fanIn ty = Except.error e) ∧
      (∀ draw : af.array, B.randu shape ty = Except.ok draw →
        (∀ x ∈ draw.data, ∃ q : ℚ, x = double.fin q ∧ 0 ≤ q) →
        af.kaimingUniform B shape fanIn ty =
          Except.ok { draw with data := draw.data.map (fun _ => double.nan) }) := by
  constructor
  · intro e he
    exact uniform_error B shape _ _ ty e he
  · intro draw hdraw hnn
    unfold af.kaimingUniform
    simp only
    rcases hle.lt_or_eq with hlt | heq
    · rw [kaimingLimit_of_neg hlt hint, uniform_ok B shape _ _ ty draw hdraw, affine_nan]
    · rw [heq, kaimingLimit_zero, uniform_ok B shape _ _ ty draw hdraw, affine_inf draw hnn]

/-- Witness of `kaimingUniform_nonpositive_fanIn` at `fanIn = 0`. -/
theorem kaimingUniform_nonpositive_fanIn_witness :
    (0 : ℤ) ≤ 0 ∧ -2 ^ 31 ≤ (0 : ℤ) ∧
      ((∀ e : InitError,
          (constBackend (af.array.ofList [double.fin 0, double.fin (1 / 2)])
            (af.array.ofList [])).randu (af.dim4.mk 2 1 1 1) af.dtype.f64 = Except.error e →
          af.kaimingUniform
              (constBackend (af.array.ofList [double.fin 0, double.fin (1 / 2)])
                (af.array.ofList []))
              (af.dim4.mk 2 1 1 1) 0 af.dtype.f64 = Except.error e) ∧
        (∀ draw : af.array,
          (constBackend (af.array.ofList [double.fin 0, double.fin (1 / 2)])
            (af.array.ofList [])).randu (af.dim4.mk 2 1 1 1) af.dtype.f64 = Except.ok draw →
          (∀ x ∈ draw.data, ∃ q : ℚ, x = double.fin q ∧ 0 ≤ q) →
          af.kaimingUniform
              (constBackend (af.array.ofList [double.fin 0, double.fin (1 / 2)])
                (af.array.ofList []))
              (af.dim4.mk 2 1 1 1) 0 af.dtype.f64 =
            Except.ok { draw with data := draw.data.map (fun _ => double.nan) })) :=
  ⟨le_refl _, by decide,
    kaimingUniform_nonpositive_fanIn
      (constBackend (af.array.ofList [double.fin 0, double.fin (1 / 2)])
        (af.array.ofList []))
      (af.dim4.mk 2 1 1 1) 0 af.dtype.f64 (le_refl _) (by decide)⟩

/-- C6: with the shape check of the draw modelled from the specification, `uniform` on a
shape with a negative dimension fails with `InvalidShape` and returns no tensor, whatever
`min`, `max` and the element type.  `Init.cpp` has no check of its own: the failure is
that of the draw, which `uniform` passes on. -/
theorem uniform_negative_shape_fails (G : af.Backend InitError) (shape : af.dim4)
    (mn mx : double) (ty : af.dtype) (hneg : shape.hasNegative) :
    af.uniform (checkedBackend G) shape mn mx ty = Except.error InitError.InvalidShape ∧
      ∀ t : af.array, af.uniform (checkedBackend G) shape mn mx ty ≠ Except.ok t := by
  have h : af.uniform (checkedBackend G) shape mn mx ty =
      Except.error InitError.InvalidShape :=
    uniform_error (checkedBackend G) shape mn mx ty InitError.InvalidShape
      (by simp [checkedBackend, hneg])
  refine ⟨h, ?_⟩
  intro t ht
  rw [h] at ht
  cases ht

/-- Witness of `uniform_negative_shape_fails` at the shape `(-1, 2, 1, 1)`, over a
generator whose draw would succeed. -/
theorem uniform_negative_shape_fails_witness :
    (af.dim4.mk (-1) 2 1 1).hasNegative ∧
      (af.uniform
          (checkedBackend
            (constBackend (af.array.ofList [double.fin 0]) (af.array.ofList [])))
          (af.dim4.mk (-1) 2 1 1) (double.fin 0) (double.fin 1) af.dtype.f32 =
        Except.error InitError.InvalidShape ∧
        ∀ t : af.array,
          af.uniform
              (checkedBackend
                (constBackend (af.array.ofList [double.fin 0]) (af.array.ofList [])))
              (af.dim4.mk (-1) 2 1 1) (double.fin 0) (double.fin 1) af.dtype.f32 ≠
            Except.ok t) :=
  ⟨by decide,
    uniform_negative_shape_fails
      (constBackend (af.array.ofList [double.fin 0]) (af.array.ofList []))
      (af.dim4.mk (-1) 2 1 1) (double.fin 0) (double.fin 1) af.dtype.f32 (by decide)⟩
